import Mathlib

/-!
Verification development for the diff/annotation alignment engine of the
swarm review-page generator.

The definitions below are a shallow embedding of the Python sources:
* `render.py` — `Render.parse_diff_to_html_with_expand`,
  `Render._render_real_diff_hunk`, `Render._render_scan_context_hunk`,
  `Render._find_matching_scan_result`;
* `svn_review_generator.py` — `load_scan_results` (line-number parsing and
  per-line merging of raw issues).

Modelling conventions:
* machine integers are `Int` (Python integers are unbounded);
* the Python set `covered_lines` is modelled by the list of values inserted
  into it; membership is list membership and `sorted(...)` deduplicates;
* Python's stable `list.sort` / `sorted` is `List.insertionSort`, which is
  stable for a total preorder, like Python's sort;
* string scanning (`startswith`, `split`) is embedded structurally on the
  character list of the string, so that everything evaluates by `decide`;
* raising an exception is `Except`/`Option`;
* the environment-dependent builtin `hash : str -> int` (seeded per process
  via PYTHONHASHSEED) is modelled as an explicit function argument `pyHash`.
-/

set_option maxHeartbeats 1000000

/-! ## String scanning helpers (structural embeddings of Python `str` ops) -/

/-- `charsLead p s` : does `s` begin with the literal characters `p`?
Structural embedding of Python's `str.startswith` on character lists. -/
def charsLead : List Char → List Char → Bool
  | [], _ => true
  | _ :: _, [] => false
  | p :: ps, c :: cs => p = c && charsLead ps cs

/-- Python `s.startswith(pat)`. -/
def strStarts (s pat : String) : Bool :=
  charsLead pat.data s.data

/-- Python `s.split(sep)` for a single-character separator: splits at every
occurrence, keeping empty pieces. -/
def splitChar (sep : Char) : List Char → List (List Char)
  | [] => [[]]
  | c :: rest =>
    if c = sep then [] :: splitChar sep rest
    else
      match splitChar sep rest with
      | g :: gs => (c :: g) :: gs
      | [] => [[c]]

/-- Python `s.split(sep)` for a single-character separator, on strings. -/
def strSplit (sep : Char) (s : String) : List String :=
  (splitChar sep s.data).map (fun cs => String.mk cs)

/-! ## Diff parser (render.py lines 1250-1269)

`parse_diff_to_html_with_expand` scans the diff's lines and, for every line
matching `^@@ -(\d+)(?:,(\d+))? \+(\d+)(?:,(\d+))? @@`, records a hunk whose
body is the following lines up to the next line starting with `@@`. -/

/-- Numeric value of a digit list, as produced by Python's `int` on digits. -/
def digitsVal (ds : List Char) : Int :=
  ds.foldl (fun a c => a * 10 + ((c.toNat : Int) - 48)) 0

/-- Expect the given literal characters at the head of the input, returning
the remainder.  Used to embed the literal parts of the hunk-header regex. -/
def expectChars : List Char → List Char → Option (List Char)
  | [], rest => some rest
  | p :: ps, c :: cs => if c = p then expectChars ps cs else none
  | _ :: _, [] => none

/-- Parse one or more digits (the regex `\d+`), returning value and rest. -/
def parseNat1 (cs : List Char) : Option (Int × List Char) :=
  let ds := cs.takeWhile Char.isDigit
  if ds = [] then none else some (digitsVal ds, cs.dropWhile Char.isDigit)

/-- Parse the optional `(?:,(\d+))?` count group; as with the regex, a comma
not followed by digits makes the whole header fail, and an absent group
defaults the count to 1 (render.py line 1261). -/
def parseOptCount (cs : List Char) : Option (Int × List Char) :=
  match cs with
  | ',' :: rest =>
    match parseNat1 rest with
    | some (n, r) => some (n, r)
    | none => none
  | _ => some (1, cs)

/-- Embed the regex match
`^@@ -(old_start)(?:,(old_count))? \+(new_start)(?:,(new_count))? @@` on a
single diff line, returning `(oldStart, oldCount, newStart, newCount)`. -/
def parseHunkHeader (s : String) : Option (Int × Int × Int × Int) := do
  let r0 ← expectChars ['@', '@', ' ', '-'] s.data
  let (os, r1) ← parseNat1 r0
  let (oc, r2) ← parseOptCount r1
  let r3 ← expectChars [' ', '+'] r2
  let (ns, r4) ← parseNat1 r3
  let (nc, r5) ← parseOptCount r4
  let _ ← expectChars [' ', '@', '@'] r5
  some (os, oc, ns, nc)

/-- A parsed real diff hunk: header line kept verbatim for rendering, the
starting line numbers and new-side count from the header, and the body lines
(everything after the header up to the next line starting with `@@`). -/
structure RealHunk where
  header : String
  oldStart : Int
  newStart : Int
  newCount : Int
  body : List String
deriving DecidableEq

/-- Scan the diff's lines for hunk headers (render.py lines 1254-1269).  A
line starting with `@@` that does not match the regex is skipped, but still
terminates the body of the preceding hunk. -/
def parseHunks : List String → List RealHunk
  | [] => []
  | l :: rest =>
    match parseHunkHeader l with
    | some (os, _, ns, nc) =>
      { header := l, oldStart := os, newStart := ns, newCount := nc,
        body := rest.takeWhile (fun s => ¬ strStarts s "@@") } :: parseHunks rest
    | none => parseHunks rest

/-- `if diff_text: lines = diff_text.split('\n'); ...` — an empty diff text
yields zero hunks (render.py line 1252). -/
def parseDiffHunks (diffText : String) : List RealHunk :=
  if diffText = "" then [] else parseHunks (strSplit '\n' diffText)

/-! ## Coverage calculator (render.py lines 1276-1297)

For each real hunk, walk its body with a new-line counter seeded at
`new_start`; every line starting with `+` or a space contributes its counter
value to the covered set and advances the counter; other lines (removed
lines and untagged lines) neither contribute nor advance. -/

/-- Is this body line an added or context line (`l.startswith('+') or
l.startswith(' ')`)? -/
def isAddedOrContext (l : String) : Bool :=
  strStarts l "+" || strStarts l " "

/-- The new-file line numbers covered by one hunk body, walking with the
counter seeded at `n` (render.py lines 1285-1296). -/
def coveredOfBody : Int → List String → List Int
  | _, [] => []
  | n, l :: rest =>
    if isAddedOrContext l then n :: coveredOfBody (n + 1) rest
    else coveredOfBody n rest

/-- The covered lines of a hunk list: the values inserted into the Python
set `covered_lines`, in insertion order (the set is this list up to
duplicates; membership is list membership). -/
def coveredLines (hunks : List RealHunk) : List Int :=
  hunks.flatMap (fun h => coveredOfBody h.newStart h.body)

/-- Number of added/context lines among the first `k` body lines; the
new-line counter at position `k` is `newStart` plus this. -/
def psCount (body : List String) (k : Nat) : Int :=
  (((body.take k).filter isAddedOrContext).length : Int)

/-- Spec-side characterisation of the line number the walk assigns to body
position `k`. -/
def newLineAt (start : Int) (body : List String) (k : Nat) : Int :=
  start + psCount body k

theorem coveredOfBody_mem_iff (b : List String) :
    ∀ (s n : Int), n ∈ coveredOfBody s b ↔
      ∃ k, ∃ hk : k < b.length,
        isAddedOrContext (b.get ⟨k, hk⟩) = true ∧ n = newLineAt s b k := by
  induction b with
  | nil =>
    intro s n
    simp [coveredOfBody]
  | cons l rest ih =>
    intro s n
    by_cases hl : isAddedOrContext l
    · simp only [coveredOfBody, hl, if_pos, List.mem_cons]
      constructor
      · rintro (rfl | hmem)
        · exact ⟨0, by simp, by simpa using hl, by simp [newLineAt, psCount]⟩
        · obtain ⟨k, hk, hps, hn⟩ := (ih (s + 1) n).mp hmem
          refine ⟨k + 1, by simpa using Nat.succ_lt_succ hk, by simpa using hps, ?_⟩
          simp only [newLineAt, psCount, List.take_succ_cons, List.filter_cons, hl,
            if_true, List.length_cons, Nat.cast_add, Nat.cast_one] at hn ⊢
          omega
      · rintro ⟨k, hk, hps, hn⟩
        match k with
        | 0 =>
          left
          simp [newLineAt, psCount] at hn
          omega
        | k + 1 =>
          right
          refine (ih (s + 1) n).mpr ⟨k, by simpa using Nat.lt_of_succ_lt_succ hk, by simpa using hps, ?_⟩
          simp only [newLineAt, psCount, List.take_succ_cons, List.filter_cons, hl,
            if_true, List.length_cons, Nat.cast_add, Nat.cast_one] at hn ⊢
          omega
    · simp only [coveredOfBody, hl, if_neg, Bool.false_eq_true, not_false_iff]
      rw [ih s n]
      constructor
      · rintro ⟨k, hk, hps, hn⟩
        refine ⟨k + 1, by simpa using Nat.succ_lt_succ hk, by simpa using hps, ?_⟩
        simp only [newLineAt, psCount, List.take_succ_cons, List.filter_cons] at hn ⊢
        simp [hl] at hn ⊢
        omega
      · rintro ⟨k, hk, hps, hn⟩
        match k with
        | 0 =>
          exfalso
          simp at hps
          exact hl (by simpa using hps)
        | k + 1 =>
          refine ⟨k, by simpa using Nat.lt_of_succ_lt_succ hk, by simpa using hps, ?_⟩
          simp only [newLineAt, psCount, List.take_succ_cons, List.filter_cons] at hn ⊢
          simp [hl] at hn ⊢
          omega

/-- C2.  The covered-lines set of the Coverage Calculator holds exactly the
new-file line numbers assigned to added (`+`) and context (` `) lines when
replaying each hunk's body with a counter seeded at its `new_start`; removed
(`-`) lines (and untagged lines) neither advance the counter nor contribute
a line number, which is reflected by the counter value `newLineAt` counting
only added/context lines. -/
theorem c2_coverage_correctness (hunks : List RealHunk) (n : Int) :
    n ∈ coveredLines hunks ↔
      ∃ h ∈ hunks, ∃ k, ∃ hk : k < h.body.length,
        isAddedOrContext (h.body.get ⟨k, hk⟩) = true ∧ n = newLineAt h.newStart h.body k := by
  unfold coveredLines
  rw [List.mem_flatMap]
  constructor
  · rintro ⟨h, hh, hmem⟩
    exact ⟨h, hh, (coveredOfBody_mem_iff h.body h.newStart n).mp hmem⟩
  · rintro ⟨h, hh, hex⟩
    exact ⟨h, hh, (coveredOfBody_mem_iff h.body h.newStart n).mpr hex⟩

/-! ## Finding aligner (render.py lines 1315-1364)

For each scan line `L` (ascending):
* if `L` is covered by a real hunk, no synthetic hunk is created;
* otherwise the context window is `[max(1, L-10), min(len(full_lines), L+10)]`,
  the covered lines inside the window are subtracted, and each remaining
  maximal gap becomes one synthetic `scan_context` hunk triggered by `L`. -/

/-- A synthetic scan-context hunk (`{'type':'scan_context', 'new_start': s,
'new_count': c, 'scan_line': L}`). -/
structure ScanHunk where
  newStart : Int
  newCount : Int
  scanLine : Int
deriving DecidableEq

/-- Last line of a synthetic hunk's range. -/
def scanHunkEnd (s : ScanHunk) : Int := s.newStart + s.newCount - 1

/-- `sorted([ln for ln in covered_lines if context_start <= ln <= context_end])`:
the distinct covered lines inside the window, ascending. -/
def overlappingCovered (covered : List Int) (cs ce : Int) : List Int :=
  List.insertionSort (fun a b => a ≤ b)
    ((covered.filter (fun n => decide (cs ≤ n) && decide (n ≤ ce))).dedup)

/-- The gap-finding loop over the sorted covered lines plus the sentinel
`context_end + 1` (render.py lines 1340-1350), carrying `last_covered`. -/
def segLoop (ce : Int) : Int → List Int → List (Int × Int)
  | _, [] => []
  | last, c :: rest =>
    (if c > last + 1 ∧ last + 1 ≤ ce ∧ last + 1 ≤ c - 1
     then [(last + 1, min (c - 1) ce)] else [])
      ++ segLoop ce c rest

/-- The non-overlapping segments of the window `[cs, ce]` after subtracting
covered lines (render.py lines 1326-1352). -/
def segmentsFor (covered : List Int) (cs ce : Int) : List (Int × Int) :=
  if overlappingCovered covered cs ce = [] then [(cs, ce)]
  else segLoop ce (cs - 1) (overlappingCovered covered cs ce ++ [ce + 1])

/-- The synthetic hunks created for one scan line (render.py lines
1315-1364): none when the line is covered, otherwise one hunk per nonempty
segment. -/
def syntheticForLine (covered : List Int) (lastLine L : Int) : List ScanHunk :=
  if L ∈ covered then []
  else
    (segmentsFor covered (max 1 (L - 10)) (min lastLine (L + 10))).filterMap
      (fun p => if p.1 ≤ p.2 then some ⟨p.1, p.2 - p.1 + 1, L⟩ else none)

/-- All synthetic hunks for the (ascending) list of scan lines. -/
def allSynthetic (covered : List Int) (lastLine : Int) (scanLines : List Int) :
    List ScanHunk :=
  scanLines.flatMap (syntheticForLine covered lastLine)

/-- Line `n` lies in segment `p`'s range. -/
def inSeg (n : Int) (p : Int × Int) : Prop := p.1 ≤ n ∧ n ≤ p.2

instance (n : Int) (p : Int × Int) : Decidable (inSeg n p) := by
  unfold inSeg; infer_instance

/-- Line `n` lies in synthetic hunk `s`'s range. -/
def inScanHunk (n : Int) (s : ScanHunk) : Prop :=
  s.newStart ≤ n ∧ n ≤ scanHunkEnd s

instance (n : Int) (s : ScanHunk) : Decidable (inScanHunk n s) := by
  unfold inScanHunk; infer_instance


/-! ## Segment lemmas -/

theorem mem_overlappingCovered (covered : List Int) (cs ce x : Int) :
    x ∈ overlappingCovered covered cs ce ↔ x ∈ covered ∧ cs ≤ x ∧ x ≤ ce := by
  unfold overlappingCovered
  rw [(List.perm_insertionSort _ _).mem_iff, List.mem_dedup, List.mem_filter]
  simp

theorem overlappingCovered_pairwise_lt (covered : List Int) (cs ce : Int) :
    (overlappingCovered covered cs ce).Pairwise (fun a b => a < b) := by
  have hs : (overlappingCovered covered cs ce).Pairwise (fun a b => a ≤ b) :=
    List.sorted_insertionSort _ _
  have hn : (overlappingCovered covered cs ce).Nodup :=
    (List.perm_insertionSort _ _).symm.nodup (List.nodup_dedup _)
  exact (hs.and hn).imp (fun hab => lt_of_le_of_ne hab.1 hab.2)

theorem segLoop_complete (ce : Int) :
    ∀ (cl : List Int) (last ℓ : Int), last < ℓ → ℓ ≤ ce →
      (∀ x ∈ cl, x ≠ ℓ) → (∃ c ∈ cl, ℓ < c) →
      ∃ p ∈ segLoop ce last cl, inSeg ℓ p := by
  intro cl
  induction cl with
  | nil =>
    rintro last ℓ _ _ _ ⟨c, hc, _⟩
    exact absurd hc (List.not_mem_nil c)
  | cons c rest ih =>
    rintro last ℓ hlast hce hne ⟨c0, hc0, hc0gt⟩
    have hlc : ℓ ≠ c := fun h => hne c (List.mem_cons_self c rest) h.symm
    rcases lt_or_gt_of_ne hlc with hlt | hgt
    · refine ⟨(last + 1, min (c - 1) ce), ?_, by omega, le_min (by omega) hce⟩
      have hguard : c > last + 1 ∧ last + 1 ≤ ce ∧ last + 1 ≤ c - 1 :=
        ⟨by omega, by omega, by omega⟩
      simp only [segLoop, if_pos hguard]
      exact List.mem_append_left _ (List.mem_singleton_self _)
    · have hc0rest : c0 ∈ rest := by
        rcases List.mem_cons.mp hc0 with rfl | h
        · omega
        · exact h
      obtain ⟨p, hp, hpin⟩ :=
        ih c ℓ hgt hce (fun x hx => hne x (List.mem_cons_of_mem c hx)) ⟨c0, hc0rest, hc0gt⟩
      refine ⟨p, ?_, hpin⟩
      simp only [segLoop]
      exact List.mem_append_right _ hp

theorem segLoop_sound (ce : Int) :
    ∀ (cl : List Int) (last : Int), cl.Pairwise (fun a b => a < b) →
      (∀ x ∈ cl, last < x) →
      ∀ p ∈ segLoop ce last cl,
        last + 1 ≤ p.1 ∧ p.1 ≤ p.2 ∧ p.2 ≤ ce ∧ ∀ x ∈ cl, ¬ inSeg x p := by
  intro cl
  induction cl with
  | nil =>
    intro last _ _ p hp
    simp [segLoop] at hp
  | cons c rest ih =>
    intro last hpw hgt p hp
    have hcrest : ∀ x ∈ rest, c < x := (List.pairwise_cons.mp hpw).1
    have hpwrest : rest.Pairwise (fun a b => a < b) := (List.pairwise_cons.mp hpw).2
    have hlastc : last < c := hgt c (List.mem_cons_self c rest)
    simp only [segLoop] at hp
    rcases List.mem_append.mp hp with hhead | htail
    · by_cases hguard : c > last + 1 ∧ last + 1 ≤ ce ∧ last + 1 ≤ c - 1
      · rw [if_pos hguard] at hhead
        have hpe : p = (last + 1, min (c - 1) ce) := List.mem_singleton.mp hhead
        subst hpe
        have hm1 : min (c - 1) ce ≤ c - 1 := min_le_left _ _
        have hm2 : min (c - 1) ce ≤ ce := min_le_right _ _
        refine ⟨le_refl _, le_min (by omega) hguard.2.1, hm2, ?_⟩
        intro x hx hseg
        obtain ⟨hs1, hs2⟩ := hseg
        simp only at hs1 hs2
        rcases List.mem_cons.mp hx with rfl | hxrest
        · omega
        · have hcx : c < x := hcrest x hxrest
          omega
      · rw [if_neg hguard] at hhead
        exact absurd hhead (List.not_mem_nil p)
    · obtain ⟨h1, h2, h3, h4⟩ := ih c hpwrest hcrest p htail
      refine ⟨by omega, h2, h3, ?_⟩
      intro x hx
      rcases List.mem_cons.mp hx with rfl | hxrest
      · intro hseg
        have := hseg.1
        omega
      · exact h4 x hxrest

theorem segLoop_pairwise (ce : Int) :
    ∀ (cl : List Int) (last : Int), cl.Pairwise (fun a b => a < b) →
      (∀ x ∈ cl, last < x) →
      (segLoop ce last cl).Pairwise (fun p q => p.2 < q.1) := by
  intro cl
  induction cl with
  | nil =>
    intro last _ _
    simp [segLoop]
  | cons c rest ih =>
    intro last hpw hgt
    have hcrest : ∀ x ∈ rest, c < x := (List.pairwise_cons.mp hpw).1
    have hpwrest : rest.Pairwise (fun a b => a < b) := (List.pairwise_cons.mp hpw).2
    simp only [segLoop]
    rw [List.pairwise_append]
    refine ⟨?_, ih c hpwrest hcrest, ?_⟩
    · by_cases hguard : c > last + 1 ∧ last + 1 ≤ ce ∧ last + 1 ≤ c - 1
      · rw [if_pos hguard]
        exact List.pairwise_singleton _ _
      · rw [if_neg hguard]
        exact List.Pairwise.nil
    · intro a ha q hq
      by_cases hguard : c > last + 1 ∧ last + 1 ≤ ce ∧ last + 1 ≤ c - 1
      · rw [if_pos hguard] at ha
        have hae : a = (last + 1, min (c - 1) ce) := List.mem_singleton.mp ha
        subst hae
        have h1 := (segLoop_sound ce rest c hpwrest hcrest q hq).1
        have hm1 : min (c - 1) ce ≤ c - 1 := min_le_left _ _
        simp only
        omega
      · rw [if_neg hguard] at ha
        exact absurd ha (List.not_mem_nil a)

theorem segmentsFor_complete (covered : List Int) (cs ce ℓ : Int)
    (h1 : cs ≤ ℓ) (h2 : ℓ ≤ ce) (h3 : ℓ ∉ covered) :
    ∃ p ∈ segmentsFor covered cs ce, inSeg ℓ p := by
  unfold segmentsFor
  by_cases hov : overlappingCovered covered cs ce = []
  · rw [if_pos hov]
    exact ⟨(cs, ce), List.mem_singleton_self _, h1, h2⟩
  · rw [if_neg hov]
    apply segLoop_complete ce _ (cs - 1) ℓ (by omega) h2
    · intro x hx
      rcases List.mem_append.mp hx with hxo | hxs
      · intro he
        subst he
        exact h3 ((mem_overlappingCovered covered cs ce x).mp hxo).1
      · have hxe := List.mem_singleton.mp hxs
        omega
    · exact ⟨ce + 1, List.mem_append_right _ (List.mem_singleton_self _), by omega⟩

theorem segmentsFor_sound (covered : List Int) (cs ce : Int) :
    ∀ p ∈ segmentsFor covered cs ce,
      cs ≤ p.1 ∧ p.2 ≤ ce ∧ ∀ x ∈ covered, ¬ inSeg x p := by
  intro p hp
  unfold segmentsFor at hp
  by_cases hov : overlappingCovered covered cs ce = []
  · rw [if_pos hov] at hp
    have hpe : p = (cs, ce) := List.mem_singleton.mp hp
    subst hpe
    refine ⟨le_refl _, le_refl _, ?_⟩
    intro x hx hseg
    have hmem : x ∈ overlappingCovered covered cs ce :=
      (mem_overlappingCovered covered cs ce x).mpr ⟨hx, hseg.1, hseg.2⟩
    rw [hov] at hmem
    exact absurd hmem (List.not_mem_nil x)
  · rw [if_neg hov] at hp
    obtain ⟨w, hw⟩ := List.exists_mem_of_ne_nil _ hov
    have hwin := (mem_overlappingCovered covered cs ce w).mp hw
    have hpair : (overlappingCovered covered cs ce ++ [ce + 1]).Pairwise (fun a b => a < b) := by
      rw [List.pairwise_append]
      refine ⟨overlappingCovered_pairwise_lt _ _ _, List.pairwise_singleton _ _, ?_⟩
      intro a ha b hb
      have hain := (mem_overlappingCovered covered cs ce a).mp ha
      have hbe := List.mem_singleton.mp hb
      omega
    have hgt : ∀ x ∈ overlappingCovered covered cs ce ++ [ce + 1], cs - 1 < x := by
      intro x hx
      rcases List.mem_append.mp hx with h | h
      · have := (mem_overlappingCovered covered cs ce x).mp h
        omega
      · have := List.mem_singleton.mp h
        omega
    obtain ⟨hp1, hp2, hp3, hp4⟩ := segLoop_sound ce _ (cs - 1) hpair hgt p hp
    refine ⟨by omega, hp3, ?_⟩
    intro x hx hseg
    by_cases hxw : cs ≤ x ∧ x ≤ ce
    · exact hp4 x
        (List.mem_append_left _ ((mem_overlappingCovered covered cs ce x).mpr ⟨hx, hxw.1, hxw.2⟩))
        hseg
    · push_neg at hxw
      obtain ⟨hs1, hs2⟩ := hseg
      omega

theorem segmentsFor_pairwise (covered : List Int) (cs ce : Int) :
    (segmentsFor covered cs ce).Pairwise (fun p q => p.2 < q.1) := by
  unfold segmentsFor
  by_cases hov : overlappingCovered covered cs ce = []
  · rw [if_pos hov]
    exact List.pairwise_singleton _ _
  · rw [if_neg hov]
    obtain ⟨w, hw⟩ := List.exists_mem_of_ne_nil _ hov
    have hwin := (mem_overlappingCovered covered cs ce w).mp hw
    apply segLoop_pairwise
    · rw [List.pairwise_append]
      refine ⟨overlappingCovered_pairwise_lt _ _ _, List.pairwise_singleton _ _, ?_⟩
      intro a ha b hb
      have hain := (mem_overlappingCovered covered cs ce a).mp ha
      have hbe := List.mem_singleton.mp hb
      omega
    · intro x hx
      rcases List.mem_append.mp hx with h | h
      · have := (mem_overlappingCovered covered cs ce x).mp h
        omega
      · have := List.mem_singleton.mp h
        omega

/-! ## Synthetic-hunk lemmas -/

theorem mem_syntheticForLine (covered : List Int) (lastLine L : Int) (sh : ScanHunk) :
    sh ∈ syntheticForLine covered lastLine L ↔
      L ∉ covered ∧ ∃ p ∈ segmentsFor covered (max 1 (L - 10)) (min lastLine (L + 10)),
        p.1 ≤ p.2 ∧ sh = ⟨p.1, p.2 - p.1 + 1, L⟩ := by
  unfold syntheticForLine
  by_cases hc : L ∈ covered
  · simp [hc]
  · rw [if_neg hc, List.mem_filterMap]
    constructor
    · rintro ⟨p, hp, hf⟩
      by_cases hle : p.1 ≤ p.2
      · rw [if_pos hle] at hf
        exact ⟨hc, p, hp, hle, (Option.some.inj hf).symm⟩
      · rw [if_neg hle] at hf
        exact absurd hf (by simp)
    · rintro ⟨-, p, hp, hle, rfl⟩
      exact ⟨p, hp, by rw [if_pos hle]⟩

theorem syntheticForLine_scanLine (covered : List Int) (lastLine L : Int) (sh : ScanHunk)
    (h : sh ∈ syntheticForLine covered lastLine L) : sh.scanLine = L := by
  obtain ⟨-, p, -, -, rfl⟩ := (mem_syntheticForLine covered lastLine L sh).mp h
  rfl

theorem syntheticForLine_of_covered (covered : List Int) (lastLine L : Int)
    (h : L ∈ covered) : syntheticForLine covered lastLine L = [] := by
  unfold syntheticForLine
  rw [if_pos h]

theorem syntheticForLine_complete (covered : List Int) (lastLine L : Int)
    (h1 : 1 ≤ L) (h2 : L ≤ lastLine) (h3 : L ∉ covered) :
    ∃ sh ∈ syntheticForLine covered lastLine L, inScanHunk L sh := by
  obtain ⟨p, hp, hseg⟩ :=
    segmentsFor_complete covered (max 1 (L - 10)) (min lastLine (L + 10)) L
      (max_le h1 (by omega)) (le_min h2 (by omega)) h3
  obtain ⟨hs1, hs2⟩ := hseg
  refine ⟨⟨p.1, p.2 - p.1 + 1, L⟩,
    (mem_syntheticForLine covered lastLine L _).mpr ⟨h3, p, hp, by omega, rfl⟩, ?_⟩
  unfold inScanHunk scanHunkEnd
  constructor
  · exact hs1
  · simp only
    omega

theorem syntheticForLine_sound (covered : List Int) (lastLine L : Int) :
    ∀ sh ∈ syntheticForLine covered lastLine L,
      max 1 (L - 10) ≤ sh.newStart ∧ scanHunkEnd sh ≤ min lastLine (L + 10) ∧
        ∀ x ∈ covered, ¬ inScanHunk x sh := by
  intro sh hsh
  obtain ⟨-, p, hp, hle, rfl⟩ := (mem_syntheticForLine covered lastLine L sh).mp hsh
  obtain ⟨hq1, hq2, hq3⟩ := segmentsFor_sound covered _ _ p hp
  have hend : scanHunkEnd ⟨p.1, p.2 - p.1 + 1, L⟩ = p.2 := by
    unfold scanHunkEnd
    simp only
    omega
  refine ⟨hq1, by rw [hend]; exact hq2, ?_⟩
  intro x hx hin
  apply hq3 x hx
  obtain ⟨hi1, hi2⟩ := hin
  rw [hend] at hi2
  exact ⟨hi1, hi2⟩

theorem syntheticForLine_pairwise (covered : List Int) (lastLine L : Int) :
    (syntheticForLine covered lastLine L).Pairwise (fun s t => scanHunkEnd s < t.newStart) := by
  unfold syntheticForLine
  by_cases hc : L ∈ covered
  · rw [if_pos hc]
    exact List.Pairwise.nil
  · rw [if_neg hc, List.pairwise_filterMap]
    apply (segmentsFor_pairwise covered _ _).imp
    intro p q hpq b hb b' hb'
    by_cases hlep : p.1 ≤ p.2
    · rw [if_pos hlep, Option.mem_def] at hb
      by_cases hleq : q.1 ≤ q.2
      · rw [if_pos hleq, Option.mem_def] at hb'
        cases (Option.some.inj hb).symm
        cases (Option.some.inj hb').symm
        unfold scanHunkEnd
        simp only
        omega
      · rw [if_neg hleq] at hb'
        exact absurd hb' (by simp)
    · rw [if_neg hlep] at hb
      exact absurd hb (by simp)

theorem countP_le_one_of_pairwise (L : Int) :
    ∀ (l : List ScanHunk), l.Pairwise (fun s t => scanHunkEnd s < t.newStart) →
      l.countP (fun sh => decide (inScanHunk L sh)) ≤ 1 := by
  intro l
  induction l with
  | nil =>
    intro _
    simp
  | cons s rest ih =>
    intro hpw
    have hsrest : ∀ t ∈ rest, scanHunkEnd s < t.newStart := (List.pairwise_cons.mp hpw).1
    have hpwrest := (List.pairwise_cons.mp hpw).2
    by_cases hs : inScanHunk L s
    · rw [List.countP_cons_of_pos _ _ (by simpa using hs)]
      have hzero : rest.countP (fun sh => decide (inScanHunk L sh)) = 0 := by
        rw [List.countP_eq_zero]
        intro t ht
        simp only [decide_eq_true_eq]
        intro hint
        have h1 := hs.2
        have h2 := hint.1
        have h3 := hsrest t ht
        omega
      omega
    · rw [List.countP_cons_of_neg _ _ (by simpa using hs)]
      exact ih hpwrest

theorem allSynthetic_countP_eq_one (covered : List Int) (lastLine L : Int)
    (h1 : 1 ≤ L) (h2 : L ≤ lastLine) (h3 : L ∉ covered) :
    ∀ scanLines : List Int, scanLines.count L = 1 →
      (allSynthetic covered lastLine scanLines).countP
        (fun sh => decide (inScanHunk L sh ∧ sh.scanLine = L)) = 1 := by
  intro scanLines
  induction scanLines with
  | nil =>
    intro h
    simp at h
  | cons x rest ih =>
    intro hcount
    rw [List.count_cons] at hcount
    have hall : allSynthetic covered lastLine (x :: rest) =
        syntheticForLine covered lastLine x ++ allSynthetic covered lastLine rest := by
      simp [allSynthetic]
    rw [hall, List.countP_append]
    by_cases hx : x = L
    · subst hx
      simp only [beq_self_eq_true, if_true] at hcount
      have hrzero : List.count x rest = 0 := by omega
      rw [List.count_eq_zero] at hrzero
      have hrest0 : (allSynthetic covered lastLine rest).countP
          (fun sh => decide (inScanHunk x sh ∧ sh.scanLine = x)) = 0 := by
        rw [List.countP_eq_zero]
        intro sh hsh
        simp only [decide_eq_true_eq, not_and]
        intro _ hscan
        obtain ⟨y, hy, hshmem⟩ := List.mem_flatMap.mp hsh
        have hys := syntheticForLine_scanLine covered lastLine y sh hshmem
        rw [hscan] at hys
        exact hrzero (by rw [hys]; exact hy)
      have hmono : (syntheticForLine covered lastLine x).countP
            (fun sh => decide (inScanHunk x sh ∧ sh.scanLine = x))
          ≤ (syntheticForLine covered lastLine x).countP
            (fun sh => decide (inScanHunk x sh)) := by
        apply List.countP_mono_left
        intro sh _ hpred
        simp only [decide_eq_true_eq] at hpred ⊢
        exact hpred.1
      have hle := le_trans hmono
        (countP_le_one_of_pairwise x _ (syntheticForLine_pairwise covered lastLine x))
      have hpos : 0 < (syntheticForLine covered lastLine x).countP
          (fun sh => decide (inScanHunk x sh ∧ sh.scanLine = x)) := by
        rw [List.countP_pos_iff]
        obtain ⟨sh, hshmem, hshin⟩ := syntheticForLine_complete covered lastLine x h1 h2 h3
        refine ⟨sh, hshmem, ?_⟩
        simp only [decide_eq_true_eq]
        exact ⟨hshin, syntheticForLine_scanLine covered lastLine x sh hshmem⟩
      omega
    · have hbeq : (x == L) = false := beq_false_of_ne hx
      simp only [hbeq, Bool.false_eq_true, if_false] at hcount
      have hx0 : (syntheticForLine covered lastLine x).countP
          (fun sh => decide (inScanHunk L sh ∧ sh.scanLine = L)) = 0 := by
        rw [List.countP_eq_zero]
        intro sh hsh
        simp only [decide_eq_true_eq, not_and]
        intro _ hscan
        have hsc := syntheticForLine_scanLine covered lastLine x sh hsh
        rw [hscan] at hsc
        exact hx hsc.symm
      rw [hx0, ih hcount]

/-- C1 (counterexample).  With no diff hunks and findings at lines 5 and 8
of a 20-line file, the finding at line 5 is uncovered and yet its line lies
in the ranges of TWO different synthetic hunks (`[1,15]` triggered by 5 and
`[1,18]` triggered by 8), so it is not contained in exactly one synthetic
hunk as the claim states. -/
theorem c1_counterexample :
    (5 : Int) ∉ ([] : List Int) ∧
      (allSynthetic [] 20 [5, 8]).countP (fun sh => decide (inScanHunk 5 sh)) = 2 := by
  decide

/-- C1 (amended).  For every finding line `L` with `1 ≤ L ≤ lastLine`
occurring exactly once in the scan-line list, either `L` is in the covered
set (rendered inline in a real hunk, no synthetic hunk for it), or exactly
one synthetic hunk *triggered by `L` itself* contains `L` — synthetic hunks
triggered by other findings may additionally contain `L`, and a finding
whose line exceeds `lastLine` gets no synthetic hunk containing its line. -/
theorem c1_no_loss_amended (covered : List Int) (lastLine L : Int) (scanLines : List Int)
    (h1 : 1 ≤ L) (h2 : L ≤ lastLine) (h3 : scanLines.count L = 1) :
    L ∈ covered ∨
      (allSynthetic covered lastLine scanLines).countP
        (fun sh => decide (inScanHunk L sh ∧ sh.scanLine = L)) = 1 := by
  by_cases hc : L ∈ covered
  · exact Or.inl hc
  · exact Or.inr (allSynthetic_countP_eq_one covered lastLine L h1 h2 hc scanLines h3)

theorem c1_witness :
    (9 : Int) ∈ coveredLines (parseDiffHunks "@@ -1,2 +1,2 @@\n a\n b") ∨
      (allSynthetic (coveredLines (parseDiffHunks "@@ -1,2 +1,2 @@\n a\n b")) 30 [9]).countP
        (fun sh => decide (inScanHunk 9 sh ∧ sh.scanLine = 9)) = 1 :=
  c1_no_loss_amended (coveredLines (parseDiffHunks "@@ -1,2 +1,2 @@\n a\n b")) 30 9 [9]
    (by decide) (by decide) (by decide)

/-- C3 (counterexample).  A finding at line 100 of a 5-line file is not
covered, and no covered line falls in its context window
`[max(1, 90), min(5, 110)] = [90, 5]`, yet the code produces NO synthetic
hunk at all (the window is empty), while the claim demands exactly one hunk
spanning the whole window. -/
theorem c3_counterexample :
    (100 : Int) ∉ coveredLines (parseDiffHunks "") ∧
      (∀ x ∈ coveredLines (parseDiffHunks ""),
        ¬ (max 1 ((100 : Int) - 10) ≤ x ∧ x ≤ min 5 (100 + 10))) ∧
      syntheticForLine (coveredLines (parseDiffHunks "")) 5 100 = [] := by
  decide

/-- C3 (amended).  For a finding at line `L`: if `L` is covered no synthetic
hunk is created for it; if `L` is uncovered, no covered line falls in the
window `[max(1, L-10), min(lastLine, L+10)]`, and that window is nonempty
(which can fail only when `L > lastLine + 10`), then exactly one synthetic
hunk spanning the whole window with triggering line `L` is produced. -/
theorem c3_finding_aligner_amended (covered : List Int) (lastLine L : Int) :
    (L ∈ covered → syntheticForLine covered lastLine L = []) ∧
    (L ∉ covered →
      (∀ x ∈ covered, ¬ (max 1 (L - 10) ≤ x ∧ x ≤ min lastLine (L + 10))) →
      max 1 (L - 10) ≤ min lastLine (L + 10) →
      syntheticForLine covered lastLine L =
        [⟨max 1 (L - 10), min lastLine (L + 10) - max 1 (L - 10) + 1, L⟩]) := by
  constructor
  · exact syntheticForLine_of_covered covered lastLine L
  · intro hnc hnone hle
    have hov : overlappingCovered covered (max 1 (L - 10)) (min lastLine (L + 10)) = [] := by
      rw [List.eq_nil_iff_forall_not_mem]
      intro x hx
      have hprop := (mem_overlappingCovered covered _ _ x).mp hx
      exact hnone x hprop.1 ⟨hprop.2.1, hprop.2.2⟩
    unfold syntheticForLine segmentsFor
    rw [if_neg hnc, if_pos hov]
    simp [List.filterMap_cons, hle]

/-- Witness for C3 (amended): the spec's own scenario — one real hunk
covering new lines 10-12, a finding at line 50 of a 100-line file — yields
exactly the synthetic hunk spanning `[40, 60]` with triggering line 50. -/
theorem c3_witness :
    syntheticForLine (coveredLines (parseDiffHunks "@@ -10,3 +10,3 @@\n a\n b\n c")) 100 50 =
      [⟨max 1 ((50 : Int) - 10), min 100 ((50 : Int) + 10) - max 1 ((50 : Int) - 10) + 1, 50⟩] :=
  (c3_finding_aligner_amended (coveredLines (parseDiffHunks "@@ -10,3 +10,3 @@\n a\n b\n c"))
    100 50).2 (by decide) (by decide) (by decide)

/-- C4 (counterexample).  Findings at lines 30 and 35 of a 100-line file
with no diff hunks produce the synthetic hunks `[20,40]` (triggered by 30)
and `[25,45]` (triggered by 35): line 30 appears in two different synthetic
hunks of the same file's list, refuting the claimed disjointness. -/
theorem c4_counterexample :
    allSynthetic [] 100 [30, 35] = [⟨20, 21, 30⟩, ⟨25, 21, 35⟩] ∧
      inScanHunk 30 ⟨20, 21, 30⟩ ∧ inScanHunk 30 ⟨25, 21, 35⟩ := by
  decide

/-- C4 (amended).  The synthetic hunks created for ONE finding are pairwise
disjoint (each ends strictly before the next begins), and no synthetic hunk
produced for the file — for any finding — contains a line of the covered
set; disjointness across hunks of different findings does not hold. -/
theorem c4_disjointness_amended (covered : List Int) (lastLine L : Int)
    (scanLines : List Int) :
    (syntheticForLine covered lastLine L).Pairwise (fun s t => scanHunkEnd s < t.newStart) ∧
      ∀ sh ∈ allSynthetic covered lastLine scanLines, ∀ x ∈ covered, ¬ inScanHunk x sh := by
  refine ⟨syntheticForLine_pairwise covered lastLine L, ?_⟩
  intro sh hsh x hx
  obtain ⟨y, hy, hmem⟩ := List.mem_flatMap.mp hsh
  exact (syntheticForLine_sound covered lastLine y sh hmem).2.2 x hx

theorem c4_witness : ¬ inScanHunk 10 ⟨13, 13, 15⟩ :=
  (c4_disjointness_amended (coveredLines (parseDiffHunks "@@ -10,3 +10,3 @@\n a\n b\n c"))
    100 15 [15]).2 ⟨13, 13, 15⟩ (by decide) 10 (by decide)

/-! ## Scan-result loading and merging (svn_review_generator.py lines 125-190)

`load_scan_results` collects the raw issues of one scan file, groups them by
parsed line number (a `defaultdict` keyed in first-occurrence order), and
emits one combined scan result per line. -/

/-- One raw issue of a scan file, after line-number parsing: the fields
`行号`, `问题描述`, `修改意见`, `严重程度` ("一般" or "严重"). -/
structure RawIssue where
  line : Int
  desc : String
  sugg : String
  severity : String
deriving DecidableEq

/-- A (merged) scan result: the fields `行号`, `问题描述`, `修改意见`,
`严重程度`, `问题数量` of the dictionaries appended to `scan_results`.  The
`文件名` field is fixed per scan file and omitted in this single-file
embedding. -/
structure ScanResult where
  line : Int
  desc : String
  sugg : String
  severity : String
  count : Int
deriving DecidableEq

/-- The distinct line numbers of the issues in first-occurrence order: the
iteration order of the `defaultdict` built by `grouped_issues[行号].append`. -/
def firstOccLines (seen : List Int) : List RawIssue → List Int
  | [] => []
  | i :: rest =>
    if i.line ∈ seen then firstOccLines seen rest
    else i.line :: firstOccLines (i.line :: seen) rest

/-- `f"问题{i}：{严重程度}\n问题描述：{问题描述}\n修改意见：{修改意见}"`
(svn_review_generator.py line 177). -/
def formatPart (idx : Nat) (i : RawIssue) : String :=
  "问题" ++ toString idx ++ "：" ++ i.severity ++ "\n问题描述：" ++ i.desc ++
    "\n修改意见：" ++ i.sugg

/-- The numbered parts for `enumerate(issues, 1)`. -/
def formatParts (idx : Nat) : List RawIssue → List String
  | [] => []
  | i :: rest => formatPart idx i :: formatParts (idx + 1) rest

/-- Python `sep.join(parts)`. -/
def joinSep (sep : String) : List String → String
  | [] => ""
  | [x] => x
  | x :: y :: rest => x ++ sep ++ joinSep sep (y :: rest)

/-- Merge the issues grouped at one line into one scan result
(svn_review_generator.py lines 163-190): severity is `严重` iff some issue
is, a single issue keeps its own description and suggestion, several issues
get the structured joined description, and `问题数量` is the group size. -/
def mergeGroup (line : Int) (issues : List RawIssue) : ScanResult :=
  match issues with
  | [i] =>
    { line := line, desc := i.desc, sugg := i.sugg,
      severity := if issues.any (fun j => j.severity == "严重") then "严重" else "一般",
      count := 1 }
  | _ =>
    { line := line,
      desc := joinSep "\n============\n" (formatParts 1 issues),
      sugg := "共" ++ toString issues.length ++ "个问题需要处理，请查看详细描述",
      severity := if issues.any (fun j => j.severity == "严重") then "严重" else "一般",
      count := (issues.length : Int) }

/-- The merged scan results of one scan file: one result per distinct line,
in first-occurrence order. -/
def mergeScanResults (issues : List RawIssue) : List ScanResult :=
  (firstOccLines [] issues).map
    (fun n => mergeGroup n (issues.filter (fun i => i.line == n)))

theorem mergeGroup_line (n : Int) (g : List RawIssue) : (mergeGroup n g).line = n := by
  match g with
  | [] => rfl
  | [i] => rfl
  | i :: j :: rest => rfl

theorem mergeGroup_count (n : Int) (g : List RawIssue) :
    (mergeGroup n g).count = (g.length : Int) := by
  match g with
  | [] => rfl
  | [i] => rfl
  | i :: j :: rest => rfl

theorem mergeGroup_severity (n : Int) (g : List RawIssue) :
    (mergeGroup n g).severity =
      if g.any (fun j => j.severity == "严重") then "严重" else "一般" := by
  match g with
  | [] => rfl
  | [i] => rfl
  | i :: j :: rest => rfl

theorem joinSep_contains (sep : String) :
    ∀ (l : List RawIssue) (idx : Nat) (i : RawIssue), i ∈ l →
      ∃ p q, joinSep sep (formatParts idx l) = p ++ i.desc ++ q := by
  intro l
  induction l with
  | nil =>
    intro idx i hi
    exact absurd hi (List.not_mem_nil i)
  | cons i0 rest ih =>
    intro idx i hi
    rcases List.mem_cons.mp hi with rfl | hirest
    · cases rest with
      | nil =>
        refine ⟨"问题" ++ toString idx ++ "：" ++ i.severity ++ "\n问题描述：",
          "\n修改意见：" ++ i.sugg, ?_⟩
        simp [joinSep, formatParts, formatPart, String.append_assoc]
      | cons y ys =>
        refine ⟨"问题" ++ toString idx ++ "：" ++ i.severity ++ "\n问题描述：",
          "\n修改意见：" ++ i.sugg ++ sep ++ joinSep sep (formatParts (idx + 1) (y :: ys)), ?_⟩
        simp [joinSep, formatParts, formatPart, String.append_assoc]
    · cases rest with
      | nil => exact absurd hirest (List.not_mem_nil i)
      | cons y ys =>
        obtain ⟨p, q, hpq⟩ := ih (idx + 1) i hirest
        refine ⟨formatPart idx i0 ++ sep ++ p, q, ?_⟩
        have hstep : joinSep sep (formatParts idx (i0 :: y :: ys)) =
            formatPart idx i0 ++ sep ++ joinSep sep (formatParts (idx + 1) (y :: ys)) := rfl
        rw [hstep, hpq]
        simp [String.append_assoc]

theorem mergeGroup_desc_contains (n : Int) (g : List RawIssue) :
    ∀ i ∈ g, ∃ p q, (mergeGroup n g).desc = p ++ i.desc ++ q := by
  intro i hi
  match g with
  | [] => exact absurd hi (List.not_mem_nil i)
  | [j] =>
    have hij : i = j := List.mem_singleton.mp hi
    subst hij
    exact ⟨"", "", by simp [mergeGroup]⟩
  | j :: k :: rest =>
    exact joinSep_contains "\n============\n" (j :: k :: rest) 1 i hi

theorem firstOccLines_nodup :
    ∀ (l : List RawIssue) (seen : List Int),
      (firstOccLines seen l).Nodup ∧ ∀ x ∈ firstOccLines seen l, x ∉ seen := by
  intro l
  induction l with
  | nil =>
    intro seen
    simp [firstOccLines]
  | cons i rest ih =>
    intro seen
    by_cases hi : i.line ∈ seen
    · simpa [firstOccLines, hi] using ih seen
    · simp only [firstOccLines, hi, if_neg, not_false_iff]
      obtain ⟨hnd, hns⟩ := ih (i.line :: seen)
      refine ⟨List.nodup_cons.mpr ⟨?_, hnd⟩, ?_⟩
      · intro hmem
        exact hns i.line hmem (List.mem_cons_self _ _)
      · intro x hx
        rcases List.mem_cons.mp hx with rfl | hxt
        · exact hi
        · intro hxs
          exact hns x hxt (List.mem_cons_of_mem _ hxs)

theorem mem_firstOccLines :
    ∀ (l : List RawIssue) (seen : List Int) (x : Int),
      x ∈ firstOccLines seen l ↔ x ∉ seen ∧ ∃ i ∈ l, i.line = x := by
  intro l
  induction l with
  | nil =>
    intro seen x
    simp [firstOccLines]
  | cons i rest ih =>
    intro seen x
    by_cases hi : i.line ∈ seen
    · rw [firstOccLines, if_pos hi, ih seen x]
      constructor
      · rintro ⟨hxs, j, hj, hjx⟩
        exact ⟨hxs, j, List.mem_cons_of_mem _ hj, hjx⟩
      · rintro ⟨hxs, j, hj, hjx⟩
        rcases List.mem_cons.mp hj with rfl | hjr
        · exact absurd (hjx ▸ hi) hxs
        · exact ⟨hxs, j, hjr, hjx⟩
    · rw [firstOccLines, if_neg hi]
      constructor
      · intro hx
        rcases List.mem_cons.mp hx with rfl | hxt
        · exact ⟨hi, i, List.mem_cons_self _ _, rfl⟩
        · obtain ⟨hxs, j, hj, hjx⟩ := (ih (i.line :: seen) x).mp hxt
          exact ⟨fun hs => hxs (List.mem_cons_of_mem _ hs), j, List.mem_cons_of_mem _ hj, hjx⟩
      · rintro ⟨hxs, j, hj, hjx⟩
        by_cases hxi : x = i.line
        · subst hxi
          exact List.mem_cons_self _ _
        · rcases List.mem_cons.mp hj with rfl | hjr
          · exact absurd hjx (fun h => hxi h.symm)
          · exact List.mem_cons_of_mem _
              ((ih (i.line :: seen) x).mpr
                ⟨fun hs => (List.mem_cons.mp hs).elim (fun h => hxi h) hxs, j, hjr, hjx⟩)

/-- C6.  Merge stability of `load_scan_results`: within one scan file, all
raw issues sharing a line number merge into exactly one scan result — the
merged line numbers are pairwise distinct — whose severity is `严重` iff at
least one merged issue is severe, whose `问题数量` equals the number of
merged issues, and whose description contains every merged issue's
description as a substring. -/
theorem c6_merge_stability (issues : List RawIssue) :
    ((mergeScanResults issues).map (fun r => r.line)).Nodup ∧
    ∀ r ∈ mergeScanResults issues,
      (r.severity = "严重" ↔ ∃ i ∈ issues, i.line = r.line ∧ i.severity = "严重") ∧
      r.count = ((issues.filter (fun i => i.line == r.line)).length : Int) ∧
      ∀ i ∈ issues, i.line = r.line → ∃ p q, r.desc = p ++ i.desc ++ q := by
  constructor
  · have hmap : (mergeScanResults issues).map (fun r => r.line) = firstOccLines [] issues := by
      unfold mergeScanResults
      rw [List.map_map]
      refine Eq.trans (List.map_congr_left ?_) (List.map_id' _)
      intro a _
      exact mergeGroup_line a (issues.filter (fun i => i.line == a))
    rw [hmap]
    exact (firstOccLines_nodup issues []).1
  · intro r hr
    obtain ⟨n, hn, rfl⟩ := List.mem_map.mp hr
    refine ⟨?_, ?_, ?_⟩
    · rw [mergeGroup_severity, mergeGroup_line]
      by_cases hany : (issues.filter (fun i => i.line == n)).any (fun j => j.severity == "严重")
      · rw [if_pos hany]
        obtain ⟨j, hjf, hjs⟩ := List.any_eq_true.mp hany
        obtain ⟨hjmem, hjn⟩ := List.mem_filter.mp hjf
        constructor
        · intro _
          exact ⟨j, hjmem, by simpa using hjn, by simpa using hjs⟩
        · intro _
          rfl
      · rw [if_neg hany]
        constructor
        · intro h
          exact absurd h (by decide)
        · rintro ⟨j, hjmem, hjn, hjs⟩
          exact absurd (List.any_eq_true.mpr
            ⟨j, List.mem_filter.mpr ⟨hjmem, by simpa using hjn⟩, by simpa using hjs⟩) hany
    · rw [mergeGroup_count, mergeGroup_line]
    · intro i hi hil
      rw [mergeGroup_line] at hil
      exact mergeGroup_desc_contains n _ i
        (List.mem_filter.mpr ⟨hi, by simpa using hil⟩)

/-- Witness for C6: the spec's own example — raw findings
`[{line:42, sev:general, desc:"A"}, {line:42, sev:severe, desc:"B"}]` merge
into one result at line 42 with severity `严重` and `问题数量 = 2`, whose
description contains "A" (second conjunct obtained from the theorem). -/
theorem c6_witness :
    (mergeScanResults [⟨42, "A", "sA", "一般"⟩, ⟨42, "B", "sB", "严重"⟩] =
      [⟨42, "问题1：一般\n问题描述：A\n修改意见：sA\n============\n问题2：严重\n问题描述：B\n修改意见：sB",
        "共2个问题需要处理，请查看详细描述", "严重", 2⟩]) ∧
    (∃ p q, (mergeGroup 42 (([⟨42, "A", "sA", "一般"⟩, ⟨42, "B", "sB", "严重"⟩] : List RawIssue).filter
        (fun i => i.line == (42 : Int)))).desc = p ++ "A" ++ q) :=
  ⟨by decide,
    ((c6_merge_stability [⟨42, "A", "sA", "一般"⟩, ⟨42, "B", "sB", "严重"⟩]).2
      (mergeGroup 42 (([⟨42, "A", "sA", "一般"⟩, ⟨42, "B", "sB", "严重"⟩] : List RawIssue).filter
        (fun i => i.line == (42 : Int)))) (by decide)).2.2
      ⟨42, "A", "sA", "一般"⟩ (by decide) (by decide)⟩

/-! ## Line-number parsing (svn_review_generator.py lines 109-123)

`parse_line_number(line_range, source_code)`:
* if the field contains `-`, return `int(line_range.split('-')[0])`;
* elif the field `isdigit()`, return `int(line_range)`;
* else return the first integer following a newline in the source-code
  field (`re.search(r'\n(\d+)', source_code)`), defaulting to 1. -/

/-- Python `c in s` for a character. -/
def strHasChar (c : Char) (s : String) : Bool :=
  s.data.contains c

/-- Strip leading and trailing whitespace, as Python `int` does before
parsing. -/
def trimChars (cs : List Char) : List Char :=
  ((cs.dropWhile Char.isWhitespace).reverse.dropWhile Char.isWhitespace).reverse

/-- Python `int(s)` on a decimal string: optionally signed digits with
surrounding whitespace; `none` models the `ValueError` raised on any other
shape.  (Underscore separators and non-ASCII digits are not modelled.) -/
def pyIntOfString (s : String) : Option Int :=
  match trimChars s.data with
  | [] => none
  | c :: rest =>
    if c = '+' then
      if rest ≠ [] ∧ rest.all Char.isDigit then some (digitsVal rest) else none
    else if c = '-' then
      if rest ≠ [] ∧ rest.all Char.isDigit then some (-(digitsVal rest)) else none
    else
      if (c :: rest).all Char.isDigit then some (digitsVal (c :: rest)) else none

/-- Python `s.isdigit()` (restricted to ASCII digits). -/
def pyIsdigit (s : String) : Bool :=
  s.data.all Char.isDigit && !s.data.isEmpty

/-- The first digit run immediately following a newline character, as found
by `re.search(r'\n(\d+)', source_code)`. -/
def firstNumAfterNewline : List Char → Option Int
  | [] => none
  | c :: rest =>
    if c = '\n' then
      match rest.takeWhile Char.isDigit with
      | [] => firstNumAfterNewline rest
      | d :: ds => some (digitsVal (d :: ds))
    else firstNumAfterNewline rest

/-- `parse_line_number` (svn_review_generator.py lines 109-123); `none`
models an uncaught `ValueError` from `int(...)` (the caller's `except`
then skips the whole scan file). -/
def parse_line_number (lineRange sourceCode : String) : Option Int :=
  if strHasChar '-' lineRange then
    pyIntOfString ((strSplit '-' lineRange).headD "")
  else if pyIsdigit lineRange then
    pyIntOfString lineRange
  else
    some (match firstNumAfterNewline sourceCode.data with
          | some n => n
          | none => 1)

theorem not_whitespace_of_digit (c : Char) (h : c.isDigit = true) :
    c.isWhitespace = false := by
  by_contra hw
  have hw' : c.isWhitespace = true := by
    cases hcw : c.isWhitespace
    · exact absurd hcw hw
    · rfl
  simp only [Char.isWhitespace, Bool.or_eq_true, decide_eq_true_eq] at hw'
  have hw4 : c = ' ' ∨ c = '\t' ∨ c = '\r' ∨ c = '\n' := by tauto
  rcases hw4 with rfl | rfl | rfl | rfl <;> simp [Char.isDigit] at h

theorem trimChars_of_digits (cs : List Char) (hne : cs ≠ [])
    (hall : cs.all Char.isDigit = true) : trimChars cs = cs := by
  have hdrop : ∀ (l : List Char), l ≠ [] → l.all Char.isDigit = true →
      l.dropWhile Char.isWhitespace = l := by
    intro l hlne hlall
    cases l with
    | nil => exact absurd rfl hlne
    | cons c rest =>
      rw [List.dropWhile_cons]
      rw [not_whitespace_of_digit c (by simpa using (List.all_eq_true.mp hlall c (List.mem_cons_self c rest)))]
      simp
  unfold trimChars
  rw [hdrop cs hne hall]
  rw [hdrop cs.reverse (by simpa using hne) (by
    rw [List.all_eq_true] at hall ⊢
    intro c hc
    exact hall c (List.mem_reverse.mp hc))]
  exact List.reverse_reverse cs

theorem pyIntOfString_of_digits (s : String) (h : pyIsdigit s = true) :
    pyIntOfString s = some (digitsVal s.data) := by
  unfold pyIsdigit at h
  rw [Bool.and_eq_true] at h
  obtain ⟨hall, hne⟩ := h
  have hne' : s.data ≠ [] := by
    cases hd : s.data
    · rw [hd] at hne
      simp at hne
    · simp [hd]
  unfold pyIntOfString
  rw [trimChars_of_digits s.data hne' hall]
  cases hd : s.data with
  | nil => exact absurd hd hne'
  | cons c rest =>
    rw [hd] at hall
    have hc : c.isDigit = true := by
      rw [List.all_eq_true] at hall
      simpa using hall c (List.mem_cons_self c rest)
    have hcp : ¬ c = '+' := by
      intro he
      subst he
      simp [Char.isDigit] at hc
    have hcm : ¬ c = '-' := by
      intro he
      subst he
      simp [Char.isDigit] at hc
    show (if c = '+' then
        if rest ≠ [] ∧ rest.all Char.isDigit then some (digitsVal rest) else none
      else if c = '-' then
        if rest ≠ [] ∧ rest.all Char.isDigit then some (-(digitsVal rest)) else none
      else
        if (c :: rest).all Char.isDigit then some (digitsVal (c :: rest)) else none) =
      some (digitsVal (c :: rest))
    rw [if_neg hcp, if_neg hcm, if_pos hall]

/-- C10 (counterexample).  Line-number parsing is not total: a field that
contains `-` but whose text before the first `-` is not an integer literal
(here `"-5"`, whose prefix is empty) makes `int('')` raise a `ValueError`
(modelled by `none`); digit-prefixed ranges such as `"3345-3348"` do parse. -/
theorem c10_counterexample :
    parse_line_number "-5" "" = none ∧ parse_line_number "3345-3348" "" = some 3345 := by
  decide

/-- C10 (amended).  `parse_line_number` returns the integer before the first
`-` when the field contains `-` — raising (returning `none`) exactly when
that prefix is not a valid integer literal — the field's value when the
field is all digits, and otherwise the first integer following a newline in
the source-code field, defaulting to 1; so it is total except on malformed
`-`-containing fields. -/
theorem c10_totality_amended (lr sc : String) :
    (strHasChar '-' lr = true →
      parse_line_number lr sc = pyIntOfString ((strSplit '-' lr).headD "")) ∧
    (strHasChar '-' lr = false → pyIsdigit lr = true →
      parse_line_number lr sc = some (digitsVal lr.data)) ∧
    (strHasChar '-' lr = false → pyIsdigit lr = false →
      parse_line_number lr sc =
        some (match firstNumAfterNewline sc.data with | some n => n | none => 1)) ∧
    (parse_line_number lr sc = none ↔
      strHasChar '-' lr = true ∧ pyIntOfString ((strSplit '-' lr).headD "") = none) := by
  have hb1 : strHasChar '-' lr = true →
      parse_line_number lr sc = pyIntOfString ((strSplit '-' lr).headD "") := by
    intro h
    unfold parse_line_number
    rw [if_pos h]
  have hb2 : strHasChar '-' lr = false → pyIsdigit lr = true →
      parse_line_number lr sc = some (digitsVal lr.data) := by
    intro h hd
    unfold parse_line_number
    rw [if_neg (by simp [h]), if_pos hd]
    exact pyIntOfString_of_digits lr hd
  have hb3 : strHasChar '-' lr = false → pyIsdigit lr = false →
      parse_line_number lr sc =
        some (match firstNumAfterNewline sc.data with | some n => n | none => 1) := by
    intro h hd
    unfold parse_line_number
    rw [if_neg (by simp [h]), if_neg (by simp [hd])]
  refine ⟨hb1, hb2, hb3, ?_⟩
  by_cases h : strHasChar '-' lr = true
  · rw [hb1 h]
    exact ⟨fun hn => ⟨h, hn⟩, fun hp => hp.2⟩
  · have hf : strHasChar '-' lr = false := by
      cases hh : strHasChar '-' lr
      · rfl
      · exact absurd hh h
    by_cases hd : pyIsdigit lr = true
    · rw [hb2 hf hd]
      simp [hf]
    · have hdf : pyIsdigit lr = false := by
        cases hh : pyIsdigit lr
        · rfl
        · exact absurd hh hd
      rw [hb3 hf hdf]
      simp [hf]

/-- Witness for C10 (amended): the range field `"3345-3348"` takes the
`-`-branch and parses to the integer before the first `-`. -/
theorem c10_witness :
    parse_line_number "3345-3348" "" = pyIntOfString ((strSplit '-' "3345-3348").headD "") ∧
      parse_line_number "3345-3348" "" = some 3345 :=
  ⟨(c10_totality_amended "3345-3348" "").1 (by decide), by decide⟩

/-! ## Hunk merger / renderer (render.py lines 1378-1514)

The per-file rendering walks the sorted real and synthetic hunks with
`prev_hunk_end` starting at 0, emitting an expand-above control for every
gap, the hunk's rows, and a trailing expand-below control.  The emitted
`<tr>` elements are modelled as structured rows: the fixed markup and
`html.escape` are a constant serialisation of the data captured here.  The
`hash(问题描述)`-derived CID display depends on the process hash seed and is
kept as the `cid` field computed from the explicit `pyHash` argument. -/

/-- One table row of the rendered diff. -/
inductive Row
  | expandAbove (cs ce : Int)
  | expandBelow (cs ce : Int)
  | hunkHeader (text : String)
  | added (newNum : Int) (content : String)
  | removed (oldNum : Int) (content : String)
  | context (oldNum newNum : Int) (content : String)
  | scanContext (newNum : Int) (content : String)
  | scanRow (line : Int) (cid : Int) (severity : String) (desc : String) (sugg : String)
      (count : Int)
deriving DecidableEq

/-- `_find_matching_scan_result(scan_results, filename, line_num)` restricted
to a single file, where all results belong to that file and path matching is
already resolved: the first result whose `行号` equals the line. -/
def findMatchingScanResult (results : List ScanResult) (ln : Int) : Option ScanResult :=
  results.find? (fun r => r.line == ln)

/-- The CID display number `hash(问题描述) % 1000000` (render.py lines 1468,
1510); `Int.emod` agrees with Python `%` for a positive modulus. -/
def pyCid (pyHash : String → Int) (desc : String) : Int :=
  pyHash desc % 1000000

/-- The line number looked up for scan results on this body line
(render.py lines 1442-1448): `cur_new` for added and context lines,
`cur_old` for removed lines, none otherwise. -/
def scanLineNumOf (l : String) (curOld curNew : Int) : Option Int :=
  if strStarts l "+" then some curNew
  else if strStarts l "-" then some curOld
  else if strStarts l " " then some curNew
  else none

/-- The scan-result row emitted (at most once per hunk) for the looked-up
line number, and the updated per-hunk rendered-key set (render.py lines
1450-1472); the lookup only happens when the line number is truthy
(nonzero, `if scan_line_num:`). -/
def scanStepRows (pyHash : String → Int) (results : List ScanResult) (num : Option Int)
    (rendered : List (Int × String)) : List Row × List (Int × String) :=
  match num with
  | some n =>
    if n ≠ 0 then
      match findMatchingScanResult results n with
      | some r =>
        if (r.line, r.desc) ∈ rendered then ([], rendered)
        else ([Row.scanRow n (pyCid pyHash r.desc) r.severity r.desc r.sugg r.count],
              (r.line, r.desc) :: rendered)
      | none => ([], rendered)
    else ([], rendered)
  | none => ([], rendered)

/-- The diff line's own row and the advanced counters (render.py lines
1474-1485): added lines advance `cur_new`, removed lines `cur_old`, context
lines both, untagged lines emit nothing. -/
def lineStepRows (l : String) (curOld curNew : Int) : List Row × Int × Int :=
  if strStarts l "+" then ([Row.added curNew (l.drop 1)], curOld, curNew + 1)
  else if strStarts l "-" then ([Row.removed curOld (l.drop 1)], curOld + 1, curNew)
  else if strStarts l " " then
    ([Row.context curOld curNew (l.drop 1)], curOld + 1, curNew + 1)
  else ([], curOld, curNew)

/-- Replay of the body of a real hunk (render.py lines 1437-1485), carrying
`cur_old`, `cur_new` and the per-hunk set of already rendered scan results
(keyed, for one file, by `(行号, 问题描述)`).  As in the code, the scan
result row is emitted before the diff line's own row. -/
def renderRealBody (pyHash : String → Int) (results : List ScanResult) :
    List String → Int → Int → List (Int × String) → List Row
  | [], _, _, _ => []
  | l :: rest, curOld, curNew, rendered =>
    (scanStepRows pyHash results (scanLineNumOf l curOld curNew) rendered).1 ++
      (lineStepRows l curOld curNew).1 ++
      renderRealBody pyHash results rest (lineStepRows l curOld curNew).2.1
        (lineStepRows l curOld curNew).2.2
        (scanStepRows pyHash results (scanLineNumOf l curOld curNew) rendered).2

/-- `_render_real_diff_hunk`: the header row followed by the replayed body. -/
def renderRealHunk (pyHash : String → Int) (results : List ScanResult) (h : RealHunk) :
    List Row :=
  Row.hunkHeader h.header :: renderRealBody pyHash results h.body h.oldStart h.newStart []

/-- `full_lines[ln-1] if 0 <= ln-1 < len(full_lines) else ''`
(render.py line 1496). -/
def lineContent (fullLines : List String) (ln : Int) : String :=
  if 0 ≤ ln - 1 ∧ ln - 1 < (fullLines.length : Int) then fullLines.getD (ln - 1).toNat ""
  else ""

/-- `count` consecutive integers starting at `s`. -/
def rangeListAux (s : Int) : Nat → List Int
  | 0 => []
  | n + 1 => s :: rangeListAux (s + 1) n

/-- Python `range(s, e+1)` as a list of `Int`. -/
def rangeList (s e : Int) : List Int :=
  rangeListAux s (e + 1 - s).toNat

/-- The synthetic hunk's header text
`@@ Scan Result Context: Lines {s}-{e} @@`. -/
def scanHunkHeader (sh : ScanHunk) : String :=
  "@@ Scan Result Context: Lines " ++ toString sh.newStart ++ "-" ++
    toString (scanHunkEnd sh) ++ " @@"

/-- `_render_scan_context_hunk` (render.py lines 1487-1514): the synthetic
header, then for each line of the range its content row followed by the
scan-result row when a finding sits on that line. -/
def scanHunkLineRows (pyHash : String → Int) (results : List ScanResult)
    (fullLines : List String) (ln : Int) : List Row :=
  Row.scanContext ln (lineContent fullLines ln) ::
    (match findMatchingScanResult results ln with
     | some r => [Row.scanRow ln (pyCid pyHash r.desc) r.severity r.desc r.sugg r.count]
     | none => [])

def renderScanHunk (pyHash : String → Int) (results : List ScanResult)
    (fullLines : List String) (sh : ScanHunk) : List Row :=
  Row.hunkHeader (scanHunkHeader sh) ::
    (rangeList sh.newStart (scanHunkEnd sh)).flatMap
      (scanHunkLineRows pyHash results fullLines)

/-- A render unit: a real diff hunk or a synthetic scan-context hunk. -/
inductive RenderUnit
  | real (h : RealHunk)
  | scan (s : ScanHunk)
deriving DecidableEq

/-- `hunk['new_start']`. -/
def unitStart : RenderUnit → Int
  | .real h => h.newStart
  | .scan s => s.newStart

/-- `hunk['new_count']`. -/
def unitCount : RenderUnit → Int
  | .real h => h.newCount
  | .scan s => s.newCount

/-- `hunk_end = hunk_start + hunk_count - 1` (render.py line 1389). -/
def unitEnd (u : RenderUnit) : Int := unitStart u + unitCount u - 1

/-- Line `n` lies in the unit's header range `[start, end]`. -/
def inUnit (n : Int) (u : RenderUnit) : Prop := unitStart u ≤ n ∧ n ≤ unitEnd u

instance (n : Int) (u : RenderUnit) : Decidable (inUnit n u) := by
  unfold inUnit; infer_instance

instance : DecidableRel (fun (u v : RenderUnit) => unitStart u ≤ unitStart v) :=
  fun u v => Int.decLe (unitStart u) (unitStart v)

instance : IsTotal RenderUnit (fun u v => unitStart u ≤ unitStart v) :=
  ⟨fun u v => le_total (unitStart u) (unitStart v)⟩

instance : IsTrans RenderUnit (fun u v => unitStart u ≤ unitStart v) :=
  ⟨fun _ _ _ hab hbc => le_trans hab hbc⟩

instance : DecidableRel (fun (r t : ScanResult) => r.line ≤ t.line) :=
  fun r t => Int.decLe r.line t.line

instance : IsTotal ScanResult (fun r t => r.line ≤ t.line) :=
  ⟨fun r t => le_total r.line t.line⟩

instance : IsTrans ScanResult (fun r t => r.line ≤ t.line) :=
  ⟨fun _ _ _ hab hbc => le_trans hab hbc⟩

/-- The walk over the sorted units (render.py lines 1383-1416): expand-above
controls before gaps, the unit's rows, `prev_hunk_end` updated to the unit's
header end, and a trailing expand-below control when lines remain. -/
def renderUnitsGo (pyHash : String → Int) (results : List ScanResult)
    (fullLines : List String) : List RenderUnit → Int → List Row
  | [], prevEnd =>
    if prevEnd < (fullLines.length : Int) then
      [Row.expandBelow (prevEnd + 1) (fullLines.length : Int)]
    else []
  | u :: rest, prevEnd =>
    (if unitStart u > prevEnd + 1 then [Row.expandAbove (prevEnd + 1) (unitStart u - 1)]
     else []) ++
      (match u with
       | .real h => renderRealHunk pyHash results h
       | .scan s => renderScanHunk pyHash results fullLines s) ++
      renderUnitsGo pyHash results fullLines rest (unitEnd u)

/-- The merged, sorted unit list of `parse_diff_to_html_with_expand`: real
hunks (in diff order), then the synthetic hunks for the line-sorted findings,
stably sorted by `new_start` (render.py lines 1250-1367). -/
def pipelineUnits (diffText : String) (fullLines : List String)
    (results : List ScanResult) : List RenderUnit :=
  List.insertionSort (fun u v => unitStart u ≤ unitStart v)
    ((parseDiffHunks diffText).map RenderUnit.real ++
      (allSynthetic (coveredLines (parseDiffHunks diffText)) ((fullLines.length : Int))
        ((List.insertionSort (fun a b => a.line ≤ b.line) results).map
          (fun r => r.line))).map RenderUnit.scan)

/-- The row output of the per-file render for given inputs. -/
def pipelineRows (pyHash : String → Int) (diffText : String) (fullLines : List String)
    (results : List ScanResult) : List Row :=
  renderUnitsGo pyHash results fullLines (pipelineUnits diffText fullLines results) 0

/-- `parse_diff_to_html_with_expand` for one file, with the file-system
search abstracted into the `fullLines` input: when no content was found
(`full_lines` empty) the function raises `FileNotFoundError` and the
exception propagates (render.py lines 1241-1248); otherwise it returns the
rendered rows. -/
def parse_diff_to_html_with_expand (pyHash : String → Int) (diffText : String)
    (fullLines : List String) (results : List ScanResult) : Except String (List Row) :=
  if fullLines = [] then Except.error "file not found"
  else Except.ok (pipelineRows pyHash diffText fullLines results)

/-- C7 (counterexample).  With no full-file content (`full_lines` empty —
the file was not found at any candidate path, or was empty), the per-file
render raises (`raise FileNotFoundError`, re-raised at render.py lines
1241-1248) instead of degrading to empty strings per line: rendering of the
file aborts with an error. -/
theorem c7_counterexample :
    parse_diff_to_html_with_expand (fun _ => 0) "@@ -1,1 +1,1 @@\n x" [] [] =
      Except.error "file not found" := rfl

/-- C7 (amended).  Missing or unreadable full-file content is fatal for the
file: for every diff text and findings list, rendering with empty
`full_lines` returns an error (the raised `FileNotFoundError`), explicitly
signalled but aborting the file rather than degrading to empty-string
lines. -/
theorem c7_missing_content_fatal (pyHash : String → Int) (diffText : String)
    (results : List ScanResult) :
    parse_diff_to_html_with_expand pyHash diffText [] results =
      Except.error "file not found" := rfl

/-- Erase the process-hash-dependent CID display number from a row. -/
def eraseCid : Row → Row
  | .scanRow ln _ sev d sg c => .scanRow ln 0 sev d sg c
  | r => r

theorem scanStepRows_snd_hash (h1 h2 : String → Int) (results : List ScanResult)
    (num : Option Int) (rendered : List (Int × String)) :
    (scanStepRows h1 results num rendered).2 = (scanStepRows h2 results num rendered).2 := by
  cases num with
  | none => rfl
  | some n =>
    simp only [scanStepRows]
    by_cases hn : n = 0
    · simp [hn]
    · rw [if_pos hn, if_pos hn]
      cases hfind : findMatchingScanResult results n with
      | none => rfl
      | some r =>
        by_cases hmem : (r.line, r.desc) ∈ rendered
        · simp [hmem]
        · simp [hmem]

theorem scanStepRows_fst_hash (h1 h2 : String → Int) (results : List ScanResult)
    (num : Option Int) (rendered : List (Int × String)) :
    ((scanStepRows h1 results num rendered).1).map eraseCid =
      ((scanStepRows h2 results num rendered).1).map eraseCid := by
  cases num with
  | none => rfl
  | some n =>
    simp only [scanStepRows]
    by_cases hn : n = 0
    · simp [hn]
    · rw [if_pos hn, if_pos hn]
      cases hfind : findMatchingScanResult results n with
      | none => rfl
      | some r =>
        by_cases hmem : (r.line, r.desc) ∈ rendered
        · simp [hmem]
        · simp [hmem, eraseCid]

theorem renderRealBody_hash (h1 h2 : String → Int) (results : List ScanResult) :
    ∀ (body : List String) (curOld curNew : Int) (rendered : List (Int × String)),
      (renderRealBody h1 results body curOld curNew rendered).map eraseCid =
        (renderRealBody h2 results body curOld curNew rendered).map eraseCid := by
  intro body
  induction body with
  | nil =>
    intro curOld curNew rendered
    rfl
  | cons l rest ih =>
    intro curOld curNew rendered
    simp only [renderRealBody, List.map_append]
    rw [scanStepRows_fst_hash h1 h2 results _ rendered,
      scanStepRows_snd_hash h1 h2 results _ rendered,
      ih (lineStepRows l curOld curNew).2.1 (lineStepRows l curOld curNew).2.2
        (scanStepRows h2 results (scanLineNumOf l curOld curNew) rendered).2]

theorem scanHunkLineRows_hash (h1 h2 : String → Int) (results : List ScanResult)
    (fullLines : List String) (ln : Int) :
    (scanHunkLineRows h1 results fullLines ln).map eraseCid =
      (scanHunkLineRows h2 results fullLines ln).map eraseCid := by
  simp only [scanHunkLineRows]
  cases hfind : findMatchingScanResult results ln with
  | none => rfl
  | some r => rfl

theorem flatMap_scanHunkLineRows_hash (h1 h2 : String → Int) (results : List ScanResult)
    (fullLines : List String) :
    ∀ lns : List Int,
      (lns.flatMap (scanHunkLineRows h1 results fullLines)).map eraseCid =
        (lns.flatMap (scanHunkLineRows h2 results fullLines)).map eraseCid := by
  intro lns
  induction lns with
  | nil => rfl
  | cons ln rest ih =>
    simp only [List.flatMap_cons, List.map_append]
    rw [scanHunkLineRows_hash h1 h2 results fullLines ln, ih]

theorem renderScanHunk_hash (h1 h2 : String → Int) (results : List ScanResult)
    (fullLines : List String) (sh : ScanHunk) :
    (renderScanHunk h1 results fullLines sh).map eraseCid =
      (renderScanHunk h2 results fullLines sh).map eraseCid := by
  simp only [renderScanHunk, List.map_cons]
  rw [flatMap_scanHunkLineRows_hash h1 h2 results fullLines]

theorem renderUnitsGo_hash (h1 h2 : String → Int) (results : List ScanResult)
    (fullLines : List String) :
    ∀ (units : List RenderUnit) (prevEnd : Int),
      (renderUnitsGo h1 results fullLines units prevEnd).map eraseCid =
        (renderUnitsGo h2 results fullLines units prevEnd).map eraseCid := by
  intro units
  induction units with
  | nil =>
    intro prevEnd
    rfl
  | cons u rest ih =>
    intro prevEnd
    simp only [renderUnitsGo, List.map_append]
    rw [ih (unitEnd u)]
    cases u with
    | real h =>
      simp only [renderRealHunk, List.map_cons]
      rw [renderRealBody_hash h1 h2 results h.body h.oldStart h.newStart []]
    | scan s =>
      rw [renderScanHunk_hash h1 h2 results fullLines s]

/-- C9 (counterexample).  Two runs with different process hash seeds
(modelled by two `pyHash` functions, as `PYTHONHASHSEED` randomises
Python's `hash(str)` per process) produce different row output for the same
diff text, full file text and findings: the `CID` display number
`hash(问题描述) % 1000000` differs. -/
theorem c9_counterexample :
    pipelineRows (fun _ => 0) "" ["a"] [⟨1, "d", "s", "一般", 1⟩] ≠
      pipelineRows (fun _ => 1) "" ["a"] [⟨1, "d", "s", "一般", 1⟩] := by
  decide

/-- C9 (amended).  The rendered rows are a pure function of the three
inputs (diff text, full file text, findings) and the process's string-hash
seed; runs with different seeds agree on everything except the displayed
CID number: after erasing the CID field, the row output is identical for
all hash functions. -/
theorem c9_determinism_amended (h1 h2 : String → Int) (diffText : String)
    (fullLines : List String) (results : List ScanResult) :
    (pipelineRows h1 diffText fullLines results).map eraseCid =
      (pipelineRows h2 diffText fullLines results).map eraseCid := by
  unfold pipelineRows
  exact renderUnitsGo_hash h1 h2 results fullLines
    (pipelineUnits diffText fullLines results) 0

/-! ## Expand controls (render.py lines 1391-1416) -/

/-- The range carried by an expand control row. -/
def expandRange : Row → Option (Int × Int)
  | .expandAbove cs ce => some (cs, ce)
  | .expandBelow cs ce => some (cs, ce)
  | _ => none

/-- The expand controls emitted by the walk, with their ranges: the gap
`[prev_end+1, start-1]` before a hunk starting past `prev_end + 1`, and the
trailing `[prev_end+1, lastLine]`. -/
def controlsGo (lastLine : Int) : List RenderUnit → Int → List (Int × Int)
  | [], prevEnd => if prevEnd < lastLine then [(prevEnd + 1, lastLine)] else []
  | u :: rest, prevEnd =>
    (if unitStart u > prevEnd + 1 then [(prevEnd + 1, unitStart u - 1)] else []) ++
      controlsGo lastLine rest (unitEnd u)

theorem scanStepRows_no_expand (pyHash : String → Int) (results : List ScanResult)
    (num : Option Int) (rendered : List (Int × String)) :
    ((scanStepRows pyHash results num rendered).1).filterMap expandRange = [] := by
  cases num with
  | none => rfl
  | some n =>
    simp only [scanStepRows]
    by_cases hn : n = 0
    · simp [hn]
    · rw [if_pos hn]
      cases hfind : findMatchingScanResult results n with
      | none => rfl
      | some r =>
        by_cases hmem : (r.line, r.desc) ∈ rendered
        · simp [hmem]
        · simp [hmem, expandRange]

theorem lineStepRows_no_expand (l : String) (curOld curNew : Int) :
    ((lineStepRows l curOld curNew).1).filterMap expandRange = [] := by
  unfold lineStepRows
  by_cases h1 : strStarts l "+"
  · simp [h1, expandRange]
  · by_cases h2 : strStarts l "-"
    · simp [h1, h2, expandRange]
    · by_cases h3 : strStarts l " "
      · simp [h1, h2, h3, expandRange]
      · simp [h1, h2, h3]

theorem renderRealBody_no_expand (pyHash : String → Int) (results : List ScanResult) :
    ∀ (body : List String) (curOld curNew : Int) (rendered : List (Int × String)),
      (renderRealBody pyHash results body curOld curNew rendered).filterMap expandRange = [] := by
  intro body
  induction body with
  | nil =>
    intro curOld curNew rendered
    rfl
  | cons l rest ih =>
    intro curOld curNew rendered
    simp only [renderRealBody, List.filterMap_append]
    rw [scanStepRows_no_expand, lineStepRows_no_expand, ih]
    rfl

theorem renderRealHunk_no_expand (pyHash : String → Int) (results : List ScanResult)
    (h : RealHunk) :
    (renderRealHunk pyHash results h).filterMap expandRange = [] := by
  simp only [renderRealHunk, List.filterMap_cons]
  exact renderRealBody_no_expand pyHash results h.body h.oldStart h.newStart []

theorem scanHunkLineRows_no_expand (pyHash : String → Int) (results : List ScanResult)
    (fullLines : List String) (ln : Int) :
    (scanHunkLineRows pyHash results fullLines ln).filterMap expandRange = [] := by
  simp only [scanHunkLineRows]
  cases hfind : findMatchingScanResult results ln with
  | none => rfl
  | some r => rfl

theorem renderScanHunk_no_expand (pyHash : String → Int) (results : List ScanResult)
    (fullLines : List String) (sh : ScanHunk) :
    (renderScanHunk pyHash results fullLines sh).filterMap expandRange = [] := by
  simp only [renderScanHunk, List.filterMap_cons]
  show ((rangeList sh.newStart (scanHunkEnd sh)).flatMap
      (scanHunkLineRows pyHash results fullLines)).filterMap expandRange = []
  induction rangeList sh.newStart (scanHunkEnd sh) with
  | nil => rfl
  | cons ln rest ih =>
    simp only [List.flatMap_cons, List.filterMap_append]
    rw [scanHunkLineRows_no_expand, ih]
    rfl

theorem renderUnitsGo_filterMap_expand (pyHash : String → Int) (results : List ScanResult)
    (fullLines : List String) :
    ∀ (units : List RenderUnit) (prevEnd : Int),
      (renderUnitsGo pyHash results fullLines units prevEnd).filterMap expandRange =
        controlsGo (fullLines.length : Int) units prevEnd := by
  intro units
  induction units with
  | nil =>
    intro prevEnd
    simp only [renderUnitsGo, controlsGo]
    by_cases h : prevEnd < (fullLines.length : Int)
    · rw [if_pos h, if_pos h]
      rfl
    · rw [if_neg h, if_neg h]
      rfl
  | cons u rest ih =>
    intro prevEnd
    simp only [renderUnitsGo, controlsGo, List.filterMap_append]
    rw [ih (unitEnd u)]
    have hunit : ((match u with
        | .real h => renderRealHunk pyHash results h
        | .scan s => renderScanHunk pyHash results fullLines s) : List Row).filterMap
          expandRange = [] := by
      cases u with
      | real h => exact renderRealHunk_no_expand pyHash results h
      | scan s => exact renderScanHunk_no_expand pyHash results fullLines s
    rw [hunit]
    by_cases hgap : unitStart u > prevEnd + 1
    · rw [if_pos hgap, if_pos hgap]
      rfl
    · rw [if_neg hgap, if_neg hgap]
      rfl

theorem controlsGo_fst_shape (lastLine : Int) :
    ∀ (units : List RenderUnit) (prevEnd : Int),
      ∀ c ∈ controlsGo lastLine units prevEnd,
        c.1 = prevEnd + 1 ∨ ∃ u ∈ units, c.1 = unitEnd u + 1 := by
  intro units
  induction units with
  | nil =>
    intro prevEnd c hc
    simp only [controlsGo] at hc
    by_cases h : prevEnd < lastLine
    · rw [if_pos h] at hc
      have := List.mem_singleton.mp hc
      subst this
      exact Or.inl rfl
    · rw [if_neg h] at hc
      exact absurd hc (List.not_mem_nil c)
  | cons u rest ih =>
    intro prevEnd c hc
    simp only [controlsGo] at hc
    rcases List.mem_append.mp hc with hhead | htail
    · by_cases hgap : unitStart u > prevEnd + 1
      · rw [if_pos hgap] at hhead
        have := List.mem_singleton.mp hhead
        subst this
        exact Or.inl rfl
      · rw [if_neg hgap] at hhead
        exact absurd hhead (List.not_mem_nil c)
    · rcases ih (unitEnd u) c htail with h | ⟨v, hv, he⟩
      · exact Or.inr ⟨u, List.mem_cons_self u rest, h⟩
      · exact Or.inr ⟨v, List.mem_cons_of_mem u hv, he⟩

theorem controlsGo_pairwise (lastLine : Int) :
    ∀ (units : List RenderUnit) (prevEnd : Int),
      units.Pairwise (fun u v => unitStart u ≤ unitStart v) →
      (∀ u ∈ units, 0 ≤ unitCount u) →
      (controlsGo lastLine units prevEnd).Pairwise (fun c d => c.2 < d.1) := by
  intro units
  induction units with
  | nil =>
    intro prevEnd _ _
    simp only [controlsGo]
    by_cases h : prevEnd < lastLine
    · rw [if_pos h]
      exact List.pairwise_singleton _ _
    · rw [if_neg h]
      exact List.Pairwise.nil
  | cons u rest ih =>
    intro prevEnd hpw hcnt
    have hurest : ∀ v ∈ rest, unitStart u ≤ unitStart v := (List.pairwise_cons.mp hpw).1
    have hpwrest := (List.pairwise_cons.mp hpw).2
    have hcntrest : ∀ v ∈ rest, 0 ≤ unitCount v :=
      fun v hv => hcnt v (List.mem_cons_of_mem u hv)
    have hcntu : 0 ≤ unitCount u := hcnt u (List.mem_cons_self u rest)
    simp only [controlsGo]
    rw [List.pairwise_append]
    refine ⟨?_, ih (unitEnd u) hpwrest hcntrest, ?_⟩
    · by_cases hgap : unitStart u > prevEnd + 1
      · rw [if_pos hgap]
        exact List.pairwise_singleton _ _
      · rw [if_neg hgap]
        exact List.Pairwise.nil
    · intro a ha d hd
      by_cases hgap : unitStart u > prevEnd + 1
      · rw [if_pos hgap] at ha
        have hae := List.mem_singleton.mp ha
        subst hae
        rcases controlsGo_fst_shape lastLine rest (unitEnd u) d hd with h | ⟨v, hv, he⟩
        · have : unitEnd u + 1 = unitStart u + unitCount u := by
            unfold unitEnd
            omega
          simp only
          omega
        · have hsv := hurest v hv
          have hcv := hcntrest v hv
          have : unitEnd v + 1 = unitStart v + unitCount v := by
            unfold unitEnd
            omega
          simp only
          omega
      · rw [if_neg hgap] at ha
        exact absurd ha (List.not_mem_nil a)

theorem controlsGo_cover (lastLine : Int) :
    ∀ (units : List RenderUnit) (prevEnd ℓ : Int),
      prevEnd < ℓ → ℓ ≤ lastLine → (∀ u ∈ units, ¬ inUnit ℓ u) →
      ∃ c ∈ controlsGo lastLine units prevEnd, c.1 ≤ ℓ ∧ ℓ ≤ c.2 := by
  intro units
  induction units with
  | nil =>
    intro prevEnd ℓ h1 h2 _
    simp only [controlsGo]
    rw [if_pos (by omega)]
    exact ⟨(prevEnd + 1, lastLine), List.mem_singleton_self _, by omega, by omega⟩
  | cons u rest ih =>
    intro prevEnd ℓ h1 h2 hnone
    simp only [controlsGo]
    by_cases hlt : ℓ < unitStart u
    · refine ⟨(prevEnd + 1, unitStart u - 1), ?_, by omega, by omega⟩
      rw [if_pos (by omega)]
      exact List.mem_append_left _ (List.mem_singleton_self _)
    · have hu : ¬ inUnit ℓ u := hnone u (List.mem_cons_self u rest)
      have hend : unitEnd u < ℓ := by
        unfold inUnit at hu
        push_neg at hu
        omega
      obtain ⟨c, hc, hcin⟩ := ih (unitEnd u) ℓ hend h2
        (fun v hv => hnone v (List.mem_cons_of_mem u hv))
      exact ⟨c, List.mem_append_right _ hc, hcin⟩

theorem countP_pair_le_one (ℓ : Int) :
    ∀ (l : List (Int × Int)), l.Pairwise (fun c d => c.2 < d.1) →
      l.countP (fun c => decide (c.1 ≤ ℓ ∧ ℓ ≤ c.2)) ≤ 1 := by
  intro l
  induction l with
  | nil =>
    intro _
    simp
  | cons c rest ih =>
    intro hpw
    have hcrest : ∀ d ∈ rest, c.2 < d.1 := (List.pairwise_cons.mp hpw).1
    have hpwrest := (List.pairwise_cons.mp hpw).2
    by_cases hc : c.1 ≤ ℓ ∧ ℓ ≤ c.2
    · rw [List.countP_cons_of_pos _ _ (by simpa using hc)]
      have hzero : rest.countP (fun d => decide (d.1 ≤ ℓ ∧ ℓ ≤ d.2)) = 0 := by
        rw [List.countP_eq_zero]
        intro d hd
        simp only [decide_eq_true_eq]
        intro hdin
        have := hcrest d hd
        omega
      omega
    · rw [List.countP_cons_of_neg _ _ (by simpa using hc)]
      exact ih hpwrest

theorem digit_toNat_ge (c : Char) (h : c.isDigit = true) : 48 ≤ (c.toNat : Int) := by
  simp [Char.isDigit] at h
  obtain ⟨h1, h2⟩ := h
  have h3 : (48 : UInt32).toNat ≤ c.val.toNat := h1
  have h4 : (48 : UInt32).toNat = 48 := rfl
  rw [h4] at h3
  simp [Char.toNat]
  omega

theorem digitsVal_foldl_nonneg :
    ∀ (ds : List Char) (a : Int), 0 ≤ a → (∀ c ∈ ds, c.isDigit = true) →
      0 ≤ ds.foldl (fun a c => a * 10 + ((c.toNat : Int) - 48)) a := by
  intro ds
  induction ds with
  | nil =>
    intro a ha _
    simpa using ha
  | cons c rest ih =>
    intro a ha hall
    simp only [List.foldl_cons]
    apply ih
    · have hd := digit_toNat_ge c (hall c (List.mem_cons_self c rest))
      have hmul : 0 ≤ a * 10 := by positivity
      omega
    · exact fun d hd => hall d (List.mem_cons_of_mem c hd)

theorem digitsVal_nonneg (ds : List Char) (h : ∀ c ∈ ds, c.isDigit = true) :
    0 ≤ digitsVal ds :=
  digitsVal_foldl_nonneg ds 0 (le_refl 0) h

theorem parseNat1_nonneg (cs : List Char) (n : Int) (r : List Char)
    (h : parseNat1 cs = some (n, r)) : 0 ≤ n := by
  simp only [parseNat1] at h
  by_cases hds : cs.takeWhile Char.isDigit = []
  · rw [if_pos hds] at h
    exact absurd h (by simp)
  · rw [if_neg hds] at h
    have hn : digitsVal (cs.takeWhile Char.isDigit) = n := by
      have := Option.some.inj h
      simpa using congrArg Prod.fst this
    rw [← hn]
    exact digitsVal_nonneg _ (fun c hc => List.mem_takeWhile_imp hc)

theorem parseOptCount_nonneg (cs : List Char) (n : Int) (r : List Char)
    (h : parseOptCount cs = some (n, r)) : 0 ≤ n := by
  unfold parseOptCount at h
  split at h
  · split at h
    · rename_i m r' heq
      have := Option.some.inj h
      have hn : m = n := by simpa using congrArg Prod.fst this
      subst hn
      exact parseNat1_nonneg _ _ _ heq
    · exact absurd h (by simp)
  · have := Option.some.inj h
    have hn : (1 : Int) = n := by simpa using congrArg Prod.fst this
    omega

theorem parseHunkHeader_newCount_nonneg (s : String) (os oc ns nc : Int)
    (h : parseHunkHeader s = some (os, oc, ns, nc)) : 0 ≤ nc := by
  simp only [parseHunkHeader, bind, Option.bind_eq_some] at h
  obtain ⟨r0, hr0, h⟩ := h
  obtain ⟨⟨osv, r1⟩, h1, h⟩ := h
  obtain ⟨⟨ocv, r2⟩, h2, h⟩ := h
  obtain ⟨r3, hr3, h⟩ := h
  obtain ⟨⟨nsv, r4⟩, h4, h⟩ := h
  obtain ⟨⟨ncv, r5⟩, h5, h⟩ := h
  obtain ⟨r6, hr6, h⟩ := h
  have := Option.some.inj h
  simp only [Prod.mk.injEq] at this
  obtain ⟨-, -, -, hnc⟩ := this
  rw [← hnc]
  exact parseOptCount_nonneg _ _ _ h5

theorem parseHunks_newCount_nonneg :
    ∀ (lines : List String), ∀ h ∈ parseHunks lines, 0 ≤ h.newCount := by
  intro lines
  induction lines with
  | nil =>
    intro h hh
    simp [parseHunks] at hh
  | cons l rest ih =>
    intro h hh
    simp only [parseHunks] at hh
    cases hph : parseHunkHeader l with
    | some t =>
      obtain ⟨os, oc, ns, nc⟩ := t
      rw [hph] at hh
      rcases List.mem_cons.mp hh with rfl | htail
      · exact parseHunkHeader_newCount_nonneg l os oc ns nc hph
      · exact ih h htail
    | none =>
      rw [hph] at hh
      exact ih h hh

theorem scanHunk_count_pos (covered : List Int) (lastLine L : Int) (sh : ScanHunk)
    (h : sh ∈ syntheticForLine covered lastLine L) : 0 < sh.newCount := by
  obtain ⟨-, p, -, hle, rfl⟩ := (mem_syntheticForLine covered lastLine L sh).mp h
  simp only
  omega

theorem pipelineUnits_sorted (diffText : String) (fullLines : List String)
    (results : List ScanResult) :
    (pipelineUnits diffText fullLines results).Pairwise
      (fun u v => unitStart u ≤ unitStart v) :=
  List.sorted_insertionSort _ _

theorem pipelineUnits_count_nonneg (diffText : String) (fullLines : List String)
    (results : List ScanResult) :
    ∀ u ∈ pipelineUnits diffText fullLines results, 0 ≤ unitCount u := by
  intro u hu
  rw [pipelineUnits, List.mem_insertionSort] at hu
  rcases List.mem_append.mp hu with hreal | hscan
  · obtain ⟨h, hh, rfl⟩ := List.mem_map.mp hreal
    show 0 ≤ h.newCount
    unfold parseDiffHunks at hh
    by_cases hdt : diffText = ""
    · rw [if_pos hdt] at hh
      exact absurd hh (List.not_mem_nil h)
    · rw [if_neg hdt] at hh
      exact parseHunks_newCount_nonneg _ h hh
  · obtain ⟨s, hs, rfl⟩ := List.mem_map.mp hscan
    obtain ⟨L, hL, hmem⟩ := List.mem_flatMap.mp hs
    have := scanHunk_count_pos _ _ L s hmem
    show 0 ≤ s.newCount
    omega

/-- C5.  Gap-reachability of the merged render sequence: in the row output
of the per-file render, the expand controls (extracted with `expandRange`)
never overlap each other, and every line of `[1, lastLine]` not covered by
the header range of some merged (real or synthetic) hunk is covered by
exactly one expand control. -/
theorem c5_gap_reachability (pyHash : String → Int) (diffText : String)
    (fullLines : List String) (results : List ScanResult) (ℓ : Int) :
    ((pipelineRows pyHash diffText fullLines results).filterMap expandRange).Pairwise
        (fun c d => c.2 < d.1) ∧
      (1 ≤ ℓ → ℓ ≤ (fullLines.length : Int) →
        (∀ u ∈ pipelineUnits diffText fullLines results, ¬ inUnit ℓ u) →
        ((pipelineRows pyHash diffText fullLines results).filterMap expandRange).countP
          (fun c => decide (c.1 ≤ ℓ ∧ ℓ ≤ c.2)) = 1) := by
  have hext : (pipelineRows pyHash diffText fullLines results).filterMap expandRange =
      controlsGo (fullLines.length : Int) (pipelineUnits diffText fullLines results) 0 :=
    renderUnitsGo_filterMap_expand pyHash results fullLines
      (pipelineUnits diffText fullLines results) 0
  rw [hext]
  have hpw := controlsGo_pairwise (fullLines.length : Int)
    (pipelineUnits diffText fullLines results) 0
    (pipelineUnits_sorted diffText fullLines results)
    (pipelineUnits_count_nonneg diffText fullLines results)
  refine ⟨hpw, ?_⟩
  intro h1 h2 hnone
  have hcover := controlsGo_cover (fullLines.length : Int)
    (pipelineUnits diffText fullLines results) 0 ℓ (by omega) h2 hnone
  have hle := countP_pair_le_one ℓ _ hpw
  have hpos : 0 < (controlsGo (fullLines.length : Int)
      (pipelineUnits diffText fullLines results) 0).countP
        (fun c => decide (c.1 ≤ ℓ ∧ ℓ ≤ c.2)) := by
    rw [List.countP_pos_iff]
    obtain ⟨c, hc, hcin⟩ := hcover
    exact ⟨c, hc, by simpa using hcin⟩
  omega

/-- Witness for C5: one real hunk covering new lines 3-4 of a 6-line file,
no findings; line 1 is uncovered and lies in exactly one expand control
(the expand-above control spanning `[1, 2]`). -/
theorem c5_witness :
    ((pipelineRows (fun _ => 0) "@@ -3,2 +3,2 @@\n a\n b"
        ["x", "x", "x", "x", "x", "x"] []).filterMap expandRange).countP
      (fun c => decide (c.1 ≤ (1 : Int) ∧ (1 : Int) ≤ c.2)) = 1 :=
  (c5_gap_reachability (fun _ => 0) "@@ -3,2 +3,2 @@\n a\n b"
      ["x", "x", "x", "x", "x", "x"] [] 1).2 (by decide) (by decide) (by decide)

/-! ## Findings beyond the file length (C8) -/

theorem mem_rangeListAux :
    ∀ (n : Nat) (s ln : Int), ln ∈ rangeListAux s n ↔ s ≤ ln ∧ ln < s + n := by
  intro n
  induction n with
  | zero =>
    intro s ln
    simp [rangeListAux]
  | succ m ih =>
    intro s ln
    simp only [rangeListAux, List.mem_cons, ih (s + 1) ln]
    constructor
    · rintro (rfl | h)
      · omega
      · omega
    · intro h
      by_cases hs : ln = s
      · exact Or.inl hs
      · right
        push_cast at h ⊢
        omega

theorem mem_rangeList (s e ln : Int) : ln ∈ rangeList s e ↔ s ≤ ln ∧ ln ≤ e := by
  unfold rangeList
  rw [mem_rangeListAux]
  omega

/-- Is this row the scan-result annotation row for line `L`? -/
def isScanRowAt (L : Int) : Row → Bool
  | .scanRow ln _ _ _ _ _ => ln == L
  | _ => false

theorem renderScanHunk_scanRow_line (pyHash : String → Int) (results : List ScanResult)
    (fullLines : List String) (sh : ScanHunk) (L : Int) :
    ∀ r ∈ renderScanHunk pyHash results fullLines sh, isScanRowAt L r = true →
      sh.newStart ≤ L ∧ L ≤ scanHunkEnd sh := by
  intro r hr hL
  simp only [renderScanHunk, List.mem_cons] at hr
  rcases hr with rfl | hr
  · simp [isScanRowAt] at hL
  · obtain ⟨ln, hln, hrmem⟩ := List.mem_flatMap.mp hr
    have hrange := (mem_rangeList sh.newStart (scanHunkEnd sh) ln).mp hln
    simp only [scanHunkLineRows, List.mem_cons] at hrmem
    rcases hrmem with rfl | hrmem
    · simp [isScanRowAt] at hL
    · cases hfind : findMatchingScanResult results ln with
      | none =>
        rw [hfind] at hrmem
        exact absurd hrmem (List.not_mem_nil r)
      | some res =>
        rw [hfind] at hrmem
        have := List.mem_singleton.mp hrmem
        subst this
        simp only [isScanRowAt, beq_iff_eq] at hL
        omega

/-- C8 (counterexample).  A finding at line 8 of a 5-line file: rendering
succeeds without error, but the row output contains NO annotation row for
the finding at all — its context window is clamped to `[1, 5]` so line 8
never renders; the finding is dropped from the diff view instead of
surfacing with empty line content as the claim states. -/
theorem c8_counterexample :
    (pipelineRows (fun _ => 0) "" ["a", "b", "c", "d", "e"]
        [⟨8, "d", "s", "一般", 1⟩]).countP (isScanRowAt 8) = 0 ∧
      pipelineRows (fun _ => 0) "" ["a", "b", "c", "d", "e"]
        [⟨8, "d", "s", "一般", 1⟩] ≠ [] := by
  decide

/-- C8 (amended).  No error is raised for findings beyond the file length:
a line past the end of `full_lines` renders as the empty string in a
synthetic context hunk (`lineContent`), but such lines never occur there —
a finding whose line exceeds `lastLine` is contained in no synthetic hunk,
and no synthetic-hunk rendering emits an annotation row for it, so the
finding does not surface in the diff view (it can still surface inside a
real hunk via the diff's own line numbers). -/
theorem c8_beyond_length_amended (covered : List Int) (lastLine : Int)
    (scanLines : List Int) (L : Int) (pyHash : String → Int)
    (results : List ScanResult) (fullLines : List String) (ln : Int)
    (hL : lastLine < L) (hln : (fullLines.length : Int) < ln) :
    lineContent fullLines ln = "" ∧
    (∀ sh ∈ allSynthetic covered lastLine scanLines, ¬ inScanHunk L sh) ∧
    (∀ sh ∈ allSynthetic covered lastLine scanLines,
      (renderScanHunk pyHash results fullLines sh).countP (isScanRowAt L) = 0) := by
  refine ⟨?_, ?_, ?_⟩
  · unfold lineContent
    rw [if_neg (by intro hcon; omega)]
  · intro sh hsh hin
    obtain ⟨y, hy, hmem⟩ := List.mem_flatMap.mp hsh
    have hsound := (syntheticForLine_sound covered lastLine y sh hmem).2.1
    have hm : min lastLine (y + 10) ≤ lastLine := min_le_left _ _
    obtain ⟨hin1, hin2⟩ := hin
    omega
  · intro sh hsh
    rw [List.countP_eq_zero]
    intro r hr hL'
    obtain ⟨y, hy, hmem⟩ := List.mem_flatMap.mp hsh
    have hsound := (syntheticForLine_sound covered lastLine y sh hmem).2.1
    have hm : min lastLine (y + 10) ≤ lastLine := min_le_left _ _
    have hrange := renderScanHunk_scanRow_line pyHash results fullLines sh L r hr hL'
    omega

/-- Witness for C8 (amended): finding at line 8, 5-line file; line 9 is
beyond the file and renders empty, and no synthetic hunk contains or
annotates line 8. -/
theorem c8_witness :
    lineContent ["a", "b", "c", "d", "e"] 9 = "" ∧
    (∀ sh ∈ allSynthetic [] 5 [8], ¬ inScanHunk 8 sh) ∧
    (∀ sh ∈ allSynthetic [] 5 [8],
      (renderScanHunk (fun _ => 0) [⟨8, "d", "s", "一般", 1⟩]
        ["a", "b", "c", "d", "e"] sh).countP (isScanRowAt 8) = 0) :=
  c8_beyond_length_amended [] 5 [8] 8 (fun _ => 0) [⟨8, "d", "s", "一般", 1⟩]
    ["a", "b", "c", "d", "e"] 9 (by decide) (by decide)
